import Mathlib

/-!
JA4 fingerprinting (`ja4.go`): embedding and verified properties.

Shallow embedding of the byte-level Client Hello parser, the GREASE filter and the
canonicalise-and-hash pipeline of `ja4.go`. The library function `crypto/sha256.Sum256` is a
parameter of the hashing functions.

Conventions of the embedding:

* a Go `[]byte` and a Go `string` are lists of bytes, each byte a `Nat` below 256;
* a Go `uint16` is a `Nat` below 65536 and a Go `int` is a `Nat` (no arithmetic of the
  source can leave the range of a 64-bit `int`, and none goes negative, apart from the
  `len(s)-1` slice bounds, which are computed in `Int`);
* a run-time panic of the Go program (index or slice bound out of range) is the result
  `Except.error Trap.outOfBounds`;
* a `for` loop is a function that recurses on a step budget; running out of budget is the
  result `Except.error Trap.outOfFuel`, which the theorems show never happens.
-/

namespace JA4

/-! ## Results and faults -/

/-- Abnormal outcomes: a Go run-time panic on an index or slice bound, and the exhaustion of
the step budget the embedding gives to a loop. -/
inductive Trap where
  | outOfBounds
  | outOfFuel
  deriving DecidableEq, Repr

deriving instance DecidableEq for Except

/-- Indexing `data[i]` of a Go byte slice: panics when `i` is not below `len(data)`. -/
def rd (data : List Nat) (i : Nat) : Except Trap Nat :=
  match data[i]? with
  | some b => .ok b
  | none => .error .outOfBounds

/-- Slice expression `data[lo:hi]` converted to a string. Go panics unless
`lo ≤ hi ≤ cap(data)`; the embedding uses `len(data)` for the capacity, so it faults at least
as often as the program does. -/
def slice (data : List Nat) (lo hi : Nat) : Except Trap (List Nat) :=
  if lo ≤ hi ∧ hi ≤ data.length then .ok ((data.drop lo).take (hi - lo))
  else .error .outOfBounds

/-- String slice `s[:hi]` with a signed bound: panics unless `0 ≤ hi ≤ len(s)`. -/
def strTo (s : List Nat) (hi : Int) : Except Trap (List Nat) :=
  if 0 ≤ hi ∧ hi ≤ (s.length : Int) then .ok (s.take hi.toNat)
  else .error .outOfBounds

/-- Bytes of an ASCII string literal of the source. -/
def ascii (s : String) : List Nat := s.toList.map Char.toNat

/-! ## GREASE classifier (`ja4.go` lines 258-273) -/

/-- Source `isGREASE`: `(value&0x0f0f) == 0x0a0a && ((value>>4)&0x0f) == (value>>12)` on a
`uint16`. -/
def isGREASE (value : Nat) : Bool :=
  (value &&& 0x0f0f) == 0x0a0a && ((value >>> 4) &&& 0x0f) == (value >>> 12)

/-- Source `removeGREASE`: the values that are not GREASE, in order. -/
def removeGREASE (data : List Nat) : List Nat :=
  data.foldl (fun result d => if !isGREASE d then result ++ [d] else result) []

/-! ## Byte-level Client Hello parser (`ja4.go` lines 15-240) -/

/-- The header walk that `extractExtensions` (lines 30-72), `extractSignatureAlgorithms`
(lines 90-132) and `extractALPN` (lines 165-207) each spell out with the same statements.
The result `none` stands for an early `return` of the still empty result list; `some (offset,
extensionsEnd)` is the state on entry to the extension loop. -/
def headerWalk (data : List Nat) : Except Trap (Option (Nat × Nat)) :=
  if data.length < 43 then .ok none else
  let offset := 9
  let offset := offset + 34
  if offset + 1 > data.length then .ok none else do
  let sessionIDLen ← rd data offset
  let offset := offset + (1 + sessionIDLen)
  if offset + 2 > data.length then .ok none else do
  let cipherSuitesLen := ((← rd data offset) <<< 8) ||| (← rd data (offset + 1))
  let offset := offset + (2 + cipherSuitesLen)
  if offset + 1 > data.length then .ok none else do
  let compressionMethodsLen ← rd data offset
  let offset := offset + (1 + compressionMethodsLen)
  if offset + 2 > data.length then .ok none else do
  let extensionsLen := ((← rd data offset) <<< 8) ||| (← rd data (offset + 1))
  let offset := offset + 2
  let extensionsEnd := offset + extensionsLen
  let extensionsEnd := if extensionsEnd > data.length then data.length else extensionsEnd
  .ok (some (offset, extensionsEnd))

/-- The loop of `extractExtensions` (lines 74-81), with a step budget. -/
def extensionsLoop (data : List Nat) (extensionsEnd : Nat) :
    Nat → Nat → List Nat → Except Trap (List Nat)
  | 0, offset, extensions =>
    if offset + 4 ≤ extensionsEnd then .error .outOfFuel else .ok extensions
  | fuel + 1, offset, extensions =>
    if offset + 4 ≤ extensionsEnd then do
      let extType := (((← rd data offset) <<< 8) % 65536) ||| (← rd data (offset + 1))
      let extLen := ((← rd data (offset + 2)) <<< 8) ||| (← rd data (offset + 3))
      let offset := offset + 4
      let offset := offset + extLen
      extensionsLoop data extensionsEnd fuel offset (extensions ++ [extType])
    else .ok extensions

/-- Source `extractExtensions`. -/
def extractExtensions (data : List Nat) : Except Trap (List Nat) := do
  let handshakeLen := (← rd data 4) ||| ((← rd data 3) <<< 8)
  if handshakeLen > 896 then .ok [] else
  match ← headerWalk data with
  | none => .ok []
  | some (offset, extensionsEnd) =>
    extensionsLoop data extensionsEnd (data.length + 1) offset []

/-- The inner loop of `extractSignatureAlgorithms` (lines 149-153), with a step budget. -/
def sigLoop (data : List Nat) (sigEnd : Nat) :
    Nat → Nat → List Nat → Except Trap (List Nat)
  | 0, offset, sigs =>
    if offset + 2 ≤ sigEnd then .error .outOfFuel else .ok sigs
  | fuel + 1, offset, sigs =>
    if offset + 2 ≤ sigEnd then do
      let sig := (((← rd data offset) <<< 8) % 65536) ||| (← rd data (offset + 1))
      sigLoop data sigEnd fuel (offset + 2) (sigs ++ [sig])
    else .ok sigs

/-- The search loop of `extractSignatureAlgorithms` (lines 135-158), with a step budget.
`sigs` is still empty whenever this loop is left without a match. -/
def sigSearch (data : List Nat) (extensionsEnd : Nat) :
    Nat → Nat → Except Trap (List Nat)
  | 0, offset =>
    if offset + 4 ≤ extensionsEnd then .error .outOfFuel else .ok []
  | fuel + 1, offset =>
    if offset + 4 ≤ extensionsEnd then do
      let extType := ((← rd data offset) <<< 8) ||| (← rd data (offset + 1))
      let extLen := ((← rd data (offset + 2)) <<< 8) ||| (← rd data (offset + 3))
      let offset := offset + 4
      if extType = 0x000d ∧ offset + 2 ≤ extensionsEnd then do
        let sigLen := ((← rd data offset) <<< 8) ||| (← rd data (offset + 1))
        let offset := offset + 2
        let sigEnd := offset + sigLen
        let sigEnd := if sigEnd > extensionsEnd then extensionsEnd else sigEnd
        sigLoop data sigEnd (data.length + 1) offset []
      else
        sigSearch data extensionsEnd fuel (offset + extLen)
    else .ok []

/-- Source `extractSignatureAlgorithms`. -/
def extractSignatureAlgorithms (data : List Nat) : Except Trap (List Nat) := do
  match ← headerWalk data with
  | none => .ok []
  | some (offset, extensionsEnd) => sigSearch data extensionsEnd (data.length + 1) offset

/-- The inner loop of `extractALPN` (lines 224-234), with a step budget. -/
def alpnLoop (data : List Nat) (alpnEnd : Nat) :
    Nat → Nat → List (List Nat) → Except Trap (List (List Nat))
  | 0, offset, alpnValues =>
    if offset + 1 ≤ alpnEnd then .error .outOfFuel else .ok alpnValues
  | fuel + 1, offset, alpnValues =>
    if offset + 1 ≤ alpnEnd then do
      let strLen ← rd data offset
      let offset := offset + 1
      if offset + strLen ≤ alpnEnd then do
        let name ← slice data offset (offset + strLen)
        alpnLoop data alpnEnd fuel (offset + strLen) (alpnValues ++ [name])
      else .ok alpnValues
    else .ok alpnValues

/-- The search loop of `extractALPN` (lines 210-238), with a step budget. -/
def alpnSearch (data : List Nat) (extensionsEnd : Nat) :
    Nat → Nat → Except Trap (List (List Nat))
  | 0, offset =>
    if offset + 4 ≤ extensionsEnd then .error .outOfFuel else .ok []
  | fuel + 1, offset =>
    if offset + 4 ≤ extensionsEnd then do
      let extType := ((← rd data offset) <<< 8) ||| (← rd data (offset + 1))
      let extLen := ((← rd data (offset + 2)) <<< 8) ||| (← rd data (offset + 3))
      let offset := offset + 4
      if extType = 0x0010 ∧ offset + 2 ≤ extensionsEnd then do
        let alpnListLen := ((← rd data offset) <<< 8) ||| (← rd data (offset + 1))
        let offset := offset + 2
        let alpnEnd := offset + alpnListLen
        let alpnEnd := if alpnEnd > extensionsEnd then extensionsEnd else alpnEnd
        alpnLoop data alpnEnd (data.length + 1) offset []
      else
        alpnSearch data extensionsEnd fuel (offset + extLen)
    else .ok []

/-- Source `extractALPN`. -/
def extractALPN (data : List Nat) : Except Trap (List (List Nat)) := do
  match ← headerWalk data with
  | none => .ok []
  | some (offset, extensionsEnd) => alpnSearch data extensionsEnd (data.length + 1) offset

/-! ## Fault-free readings used in the proofs -/

/-- Byte at index `i`, with 0 outside the buffer (used only at indices shown to be inside). -/
def b8 (data : List Nat) (i : Nat) : Nat := data.getD i 0

/-- Big-endian 16-bit read `int(data[i])<<8 | int(data[i+1])`. -/
def b16 (data : List Nat) (i : Nat) : Nat := (b8 data i <<< 8) ||| b8 data (i + 1)

/-- Big-endian 16-bit read `uint16(data[i])<<8 | uint16(data[i+1])`. -/
def t16 (data : List Nat) (i : Nat) : Nat := ((b8 data i <<< 8) % 65536) ||| b8 data (i + 1)

/-- Offset at which the extension entries start when the header walk goes through: 43 bytes,
then the three length-prefixed blocks (session id, cipher suites, compression methods), then
the two bytes of the extensions length. -/
def extStart (data : List Nat) : Nat :=
  let o1 := 44 + b8 data 43
  let o2 := o1 + 2 + b16 data o1
  let o3 := o2 + 1 + b8 data o2
  o3 + 2

/-- Fault-free rendering of `headerWalk`: the walk goes through exactly when the two bytes
of the extensions length lie inside the buffer, and the end of the extension block is clamped
to the buffer length. -/
def walk (data : List Nat) : Option (Nat × Nat) :=
  if extStart data ≤ data.length then
    some (extStart data,
      if extStart data + b16 data (extStart data - 2) > data.length then data.length
      else extStart data + b16 data (extStart data - 2))
  else none

/-! ## Well-formed Client Hello buffers: the layout the parser walks -/

/-- Big-endian two-byte encoding of a value below 65536. -/
def be16 (n : Nat) : List Nat := [n / 256, n % 256]

/-- One extension entry: its type code and its payload bytes. -/
structure Ext where
  typ : Nat
  payload : List Nat
  deriving DecidableEq, Repr

/-- Wire form of an entry: 2-byte type, 2-byte payload length, payload. -/
def Ext.encode (x : Ext) : List Nat := be16 x.typ ++ (be16 x.payload.length ++ x.payload)

/-- Wire form of an extensions block: the entries one after the other. -/
def encodeExts (xs : List Ext) : List Nat := xs.flatMap Ext.encode

/-- The parts of a Client Hello buffer, in the order the parser walks them. -/
structure Hello where
  header : List Nat
  versionRandom : List Nat
  sessionID : List Nat
  cipherSuites : List Nat
  compression : List Nat
  extensions : List Ext

/-- The buffer: 9 header bytes, 34 bytes of version and random, the session id behind its
1-byte length, the cipher-suite block behind its 2-byte length, the compression block behind
its 1-byte length and the extensions block behind its 2-byte length. -/
def Hello.encode (h : Hello) : List Nat :=
  h.header ++ (h.versionRandom ++ (h.sessionID.length :: (h.sessionID ++
    (be16 h.cipherSuites.length ++ (h.cipherSuites ++ (h.compression.length ::
      (h.compression ++ (be16 (encodeExts h.extensions).length ++
        encodeExts h.extensions))))))))

/-- Every length fits the field that declares it, every type code is a 16-bit value and every
element of the buffer is a byte. -/
def Hello.WellFormed (h : Hello) : Prop :=
  h.header.length = 9 ∧ h.versionRandom.length = 34 ∧ h.sessionID.length < 256 ∧
    h.cipherSuites.length < 65536 ∧ h.compression.length < 256 ∧
    (encodeExts h.extensions).length < 65536 ∧
    (∀ x ∈ h.extensions, x.typ < 65536 ∧ x.payload.length < 65536) ∧
    (∀ b ∈ h.encode, b < 256)

instance (h : Hello) : Decidable h.WellFormed := by
  unfold Hello.WellFormed; infer_instance

/-- Payload of a signature_algorithms entry: 2-byte length `2n`, then `n` two-byte codes. -/
def sigPayload (codes : List Nat) : List Nat :=
  be16 (2 * codes.length) ++ codes.flatMap be16

/-- Body of an ALPN list: each protocol name behind its 1-byte length. -/
def alpnBody (names : List (List Nat)) : List Nat :=
  names.flatMap (fun s => s.length :: s)

/-- Payload of an ALPN entry: 2-byte list length, then the names. -/
def alpnPayload (names : List (List Nat)) : List Nat :=
  be16 (alpnBody names).length ++ alpnBody names

/-- A sample Client Hello: a GREASE entry, server_name, signature_algorithms with two codes,
ALPN with `h2` and `http/1.1`, and a second signature_algorithms entry. -/
def sampleHello : Hello where
  header := [22, 3, 1, 0, 110, 1, 0, 0, 106]
  versionRandom := 3 :: 3 :: List.replicate 32 7
  sessionID := []
  cipherSuites := [0x13, 0x01, 0x13, 0x02]
  compression := [0]
  extensions :=
    [⟨0x0a0a, []⟩, ⟨0x0000, [0, 6, 0, 0, 3, 97, 46, 98]⟩,
     ⟨0x000d, sigPayload [0x0403, 0x0804]⟩,
     ⟨0x0010, alpnPayload [[104, 50], [104, 116, 116, 112, 47, 49, 46, 49]]⟩,
     ⟨0x000d, sigPayload [0x0401]⟩]

/-! ## Canonicalise and hash (`ja4.go` lines 376-480) -/

/-- The lowercase hexadecimal digit of a value below 16, as a byte. -/
def hexDigit (d : Nat) : Nat := (ascii "0123456789abcdef").getD d 0

/-- Rendering `fmt.Sprintf("%04x", number)` of a `uint16`: four lowercase hex digits. -/
def sprintf04x (number : Nat) : List Nat :=
  [hexDigit (number / 4096 % 16), hexDigit (number / 256 % 16), hexDigit (number / 16 % 16),
    hexDigit (number % 16)]

/-- Rendering `fmt.Sprintf("%x", hash)` of a byte array: two lowercase hex digits per byte. -/
def sprintfx (hash : List Nat) : List Nat :=
  hash.flatMap (fun b => [hexDigit (b / 16 % 16), hexDigit (b % 16)])

/-- Source `CalculateSHA256Hash`. The parameter `sum256` stands for the library function
`crypto/sha256.Sum256`, which returns the 32 bytes of the digest. -/
def CalculateSHA256Hash (sum256 : List Nat → List Nat) (value : List Nat) : List Nat :=
  if value = [] then [] else sprintfx (sum256 value)

/-- Source `getSigs`. -/
def getSigs (sigs : List Nat) : Except Trap (List Nat) :=
  if sigs.length = 0 then .ok [] else
  let hexSigs := sigs.foldl (fun hexSigs number => hexSigs ++ sprintf04x number ++ ascii ",") []
  strTo hexSigs ((hexSigs.length : Int) - 1)

/-- The call `sort.Slice(xs, func(i, j int) bool { return xs[i] < xs[j] })` on `uint16` values:
it leaves `xs` rearranged in ascending order. The order being total on the values, that
arrangement is unique, so any sorting function gives it. -/
def sortSlice (xs : List Nat) : List Nat := xs.insertionSort (· ≤ ·)

/-- Source `getExtensionHash`. -/
def getExtensionHash (sum256 : List Nat → List Nat) (extensions : List Nat) (sigs : List Nat) :
    Except Trap (List Nat) :=
  let filteredExtensions := removeGREASE extensions
  if filteredExtensions.length = 0 then .ok (ascii "000000000000") else
  let filteredExtensions := sortSlice filteredExtensions
  let hexFilteredExtensions := filteredExtensions.foldl (fun hexFilteredExtensions number =>
    let hexNumber := sprintf04x number
    if hexNumber ≠ ascii "0000" ∧ hexNumber ≠ ascii "0010" then
      hexFilteredExtensions ++ sprintf04x number ++ ascii ","
    else hexFilteredExtensions) []
  do
  let hexFilteredExtensions ←
    strTo hexFilteredExtensions ((hexFilteredExtensions.length : Int) - 1)
  let hash := CalculateSHA256Hash sum256 hexFilteredExtensions
  let hash :=
    if sigs.length > 0 then CalculateSHA256Hash sum256 (hexFilteredExtensions ++ ascii "_" ++ sigs)
    else hash
  strTo hash 12

/-- Source `getCipherHash`. -/
def getCipherHash (sum256 : List Nat → List Nat) (cipherSuites : List Nat) :
    Except Trap (List Nat) :=
  let filteredCiphers := removeGREASE cipherSuites
  if filteredCiphers.length = 0 then .ok (ascii "000000000000") else
  let filteredCiphers := sortSlice filteredCiphers
  let hexFilteredCiphers := filteredCiphers.foldl (fun hexFilteredCiphers number =>
    hexFilteredCiphers ++ sprintf04x number ++ ascii ",") []
  do
  let hexFilteredCiphers ← strTo hexFilteredCiphers ((hexFilteredCiphers.length : Int) - 1)
  let hash := CalculateSHA256Hash sum256 hexFilteredCiphers
  strTo hash 12

/-- The extension hash as `CalculateJA4` obtains it (lines 368-369): `getSigs` renders the
signature algorithms, `getExtensionHash` consumes the rendering. -/
def extensionHashOf (sum256 : List Nat → List Nat) (extensions sigs : List Nat) :
    Except Trap (List Nat) :=
  getSigs sigs >>= getExtensionHash sum256 extensions

/-! ## Formatting helpers and the fingerprint assembler (`ja4.go` lines 242-256, 275-419) -/

/-- Conversion `string(b)` of a Go `byte`: the UTF-8 encoding of the code point `b`, one byte
below `0x80` and two bytes from `0x80` on. -/
def stringOfByte (b : Nat) : List Nat :=
  if b < 128 then [b] else [192 + b / 64, 128 + b % 64]

/-- Source `formatALPN`. The index expressions `alpn[0]` and `alpn[len(alpn)-1]` panic on
an empty string; `alpn[0]` is evaluated first. -/
def formatALPN (alpnValues : List (List Nat)) : Except Trap (List Nat) :=
  match alpnValues with
  | [] => .ok (ascii "00")
  | alpn :: _ =>
    if alpn.length = 2 then .ok alpn
    else do
      let first ← rd alpn 0
      let last ← rd alpn (alpn.length - 1)
      .ok (stringOfByte first ++ stringOfByte last)

/-- Source `CalculateTLSVersion`: the `switch` as a chain of tests. -/
def CalculateTLSVersion (input : Nat) : List Nat :=
  if input = 256 then ascii "s1"
  else if input = 512 then ascii "s2"
  else if input = 768 then ascii "s3"
  else if input = 769 then ascii "10"
  else if input = 770 then ascii "11"
  else if input = 771 then ascii "12"
  else if input = 772 then ascii "13"
  else if input = 65279 then ascii "d1"
  else if input = 65277 then ascii "d2"
  else if input = 65276 then ascii "d3"
  else ascii "00"

/-- Source `findLargest`. -/
def findLargest (numbers : List Nat) : Nat :=
  match numbers with
  | [] => 0
  | first :: _ =>
    numbers.foldl (fun largest number => if number > largest then number else largest) first

/-- Digits of `strconv.Itoa`, least significant first onto `acc`, with a step budget. -/
def itoaDigits : Nat → Nat → List Nat → List Nat
  | 0, _, acc => acc
  | fuel + 1, n, acc =>
    let acc := (48 + n % 10) :: acc
    if n / 10 = 0 then acc else itoaDigits fuel (n / 10) acc

/-- Library function `strconv.Itoa` on a non-negative `int`: the decimal digits, most
significant first, no padding. -/
def Itoa (n : Nat) : List Nat := itoaDigits (n + 1) n []

/-- Rendering `fmt.Sprintf("%02x", n)` of a value below 256: two lowercase hex digits. -/
def sprintf02x (n : Nat) : List Nat := [hexDigit (n / 16 % 16), hexDigit (n % 16)]

/-- Source `getExtensionsCount`. -/
def getExtensionsCount (Extensions : List Nat) : List Nat :=
  let filteredExtensions := removeGREASE Extensions
  if filteredExtensions.length = 0 then sprintf02x 0
  else Itoa filteredExtensions.length

/-- Source `getCipherCount`. -/
def getCipherCount (cipherSuites : List Nat) : List Nat :=
  let filteredCiphers := removeGREASE cipherSuites
  if filteredCiphers.length = 0 then sprintf02x 0
  else Itoa filteredCiphers.length

/-- Library function `strings.Split(s, sep)` for a separator of one byte: the pieces of `s`
between the occurrences of `sep`; `cur` is the piece being read. -/
def splitByte (sep : Nat) : List Nat → List Nat → List (List Nat)
  | [], cur => [cur]
  | c :: cs, cur => if c = sep then cur :: splitByte sep cs [] else splitByte sep cs (cur ++ [c])

/-- Modelled from the spec: the record type `types.UserSpaceTLSEvent` of the package
`github.com/jnesss/bpfview/types`, which is not among the sources. The fields are those
`CalculateJA4` reads, typed as the functions it passes them to require and as section 3 of
the specification lists them. -/
structure UserSpaceTLSEvent where
  HandshakeType : Nat
  Protocol : Nat
  IsQUIC : Bool
  TLSVersion : Nat
  SupportedVersions : List Nat
  SNI : List Nat
  ALPNValues : List (List Nat)
  CipherSuites : List Nat
  Extensions : List Nat
  SignatureAlgo : List Nat

/-- The transport letter of `CalculateJA4` (lines 333-338). -/
def protocolOf (event : UserSpaceTLSEvent) : List Nat :=
  if event.Protocol = 6 then ascii "t"
  else if event.IsQUIC then ascii "q"
  else []

/-- The version code of `CalculateJA4` (lines 341-344). -/
def tlsVerOf (event : UserSpaceTLSEvent) : List Nat :=
  let tlsVer := CalculateTLSVersion event.TLSVersion
  if event.SupportedVersions.length > 0 then
    CalculateTLSVersion (findLargest event.SupportedVersions)
  else tlsVer

/-- The SNI indicator of `CalculateJA4` (lines 347-356). -/
def sniOf (event : UserSpaceTLSEvent) : List Nat :=
  let sni := ascii "i"
  if event.SNI ≠ [] then
    let parts := splitByte 46 event.SNI []
    if parts.length ≥ 2 then ascii "d" else sni
  else sni

/-- Source `CalculateJA4`. The three plaintext fields computed first are the definitions
`protocolOf`, `tlsVerOf` and `sniOf`; the calls that can panic are made in the order of the
source. -/
def CalculateJA4 (sum256 : List Nat → List Nat) (event : UserSpaceTLSEvent) :
    Except Trap (List Nat) :=
  let ja4 := []
  if event.HandshakeType ≠ 0x01 then .ok []
  else
    let extCount := getExtensionsCount event.Extensions
    if extCount ≠ ascii "00" then do
      let protocol := protocolOf event
      let tlsVer := tlsVerOf event
      let sni := sniOf event
      let alpn ← formatALPN event.ALPNValues
      let cipherHash ← getCipherHash sum256 event.CipherSuites
      let cipherCount := getCipherCount event.CipherSuites
      let ja4_a := protocol ++ tlsVer ++ sni ++ cipherCount ++ extCount ++ alpn
      let ja4_b := cipherHash
      let sigs ← getSigs event.SignatureAlgo
      let ja4_c ← getExtensionHash sum256 event.Extensions sigs
      .ok (ja4_a ++ ascii "_" ++ ja4_b ++ ascii "_" ++ ja4_c)
    else .ok ja4

/-- A sample event: TCP, legacy version TLS 1.2 with TLS 1.3 offered, SNI `a.b`, ALPN `h2`
first, two cipher suites and five extensions besides GREASE values. -/
def sampleEvent : UserSpaceTLSEvent where
  HandshakeType := 1
  Protocol := 6
  IsQUIC := false
  TLSVersion := 771
  SupportedVersions := [772, 771]
  SNI := [97, 46, 98]
  ALPNValues := [[104, 50], [104, 116, 116, 112, 47, 49, 46, 49]]
  CipherSuites := [0x1302, 0x0a0a, 0x1301]
  Extensions := [0x1a1a, 0x0000, 0x000d, 0x0010, 0x002b, 0x000a]
  SignatureAlgo := [0x0403, 0x0804]

/-- A constant 32-byte stand-in for the digest function, used to evaluate examples. -/
def sampleSum256 (_ : List Nat) : List Nat := List.replicate 32 171

/-! ## Basic facts about reads and the header walk -/

theorem rd_eq {data : List Nat} {i : Nat} (h : i < data.length) :
    rd data i = .ok (b8 data i) := by
  simp [rd, b8, List.getD, List.getElem?_eq_getElem h]

theorem rd_oob {data : List Nat} {i : Nat} (h : data.length ≤ i) :
    rd data i = .error .outOfBounds := by
  simp [rd, List.getElem?_eq_none h]

theorem ok_bind {α β : Type} (a : α) (f : α → Except Trap β) :
    (Except.ok a >>= f) = f a := rfl

theorem headerWalk_eq (data : List Nat) : headerWalk data = .ok (walk data) := by
  unfold headerWalk walk extStart
  by_cases h0 : data.length < 43
  · rw [if_pos h0, if_neg (by dsimp only; omega)]
  by_cases h1 : data.length < 44
  · have : 9 + 34 + 1 > data.length := by omega
    rw [if_neg h0]; dsimp only
    rw [if_pos this, if_neg (by omega)]
  have h1' : ¬ (9 + 34 + 1 > data.length) := by omega
  simp only [h0, h1', if_false]
  rw [rd_eq (by omega), ok_bind]
  have e1 : 9 + 34 + (1 + b8 data (9 + 34)) = 44 + b8 data 43 := by
    simp only [Nat.reduceAdd]; omega
  simp only [e1]
  generalize 44 + b8 data 43 = o1
  by_cases h2 : o1 + 2 > data.length
  · rw [if_pos h2, if_neg (by omega)]
  simp only [h2, if_false]
  rw [rd_eq (by omega), ok_bind, rd_eq (by omega), ok_bind]
  have e2 : o1 + (2 + (b8 data o1 <<< 8 ||| b8 data (o1 + 1))) = o1 + 2 + b16 data o1 := by
    simp only [b16]; omega
  simp only [e2]
  generalize o1 + 2 + b16 data o1 = o2
  by_cases h3 : o2 + 1 > data.length
  · rw [if_pos h3, if_neg (by omega)]
  simp only [h3, if_false]
  rw [rd_eq (by omega), ok_bind]
  have e3 : o2 + (1 + b8 data o2) = o2 + 1 + b8 data o2 := by omega
  simp only [e3]
  generalize o2 + 1 + b8 data o2 = o3
  by_cases h4 : o3 + 2 > data.length
  · rw [if_pos h4, if_neg (by omega)]
  simp only [h4, if_false]
  rw [rd_eq (by omega), ok_bind, rd_eq (by omega), ok_bind,
    if_pos (show o3 + 2 ≤ data.length by omega), Nat.add_sub_cancel]
  rfl

/-! ### One-step equations of the loops -/

theorem extensionsLoop_done {data : List Nat} {e o : Nat} (h : ¬ o + 4 ≤ e) (f : Nat)
    (acc : List Nat) : extensionsLoop data e f o acc = .ok acc := by
  cases f <;> simp [extensionsLoop, h]

theorem extensionsLoop_step {data : List Nat} {e o : Nat} (h : o + 4 ≤ e)
    (he : e ≤ data.length) (f : Nat) (acc : List Nat) :
    extensionsLoop data e (f + 1) o acc =
      extensionsLoop data e f (o + 4 + b16 data (o + 2)) (acc ++ [t16 data o]) := by
  rw [extensionsLoop, if_pos h, rd_eq (by omega), ok_bind, rd_eq (by omega), ok_bind,
    rd_eq (by omega), ok_bind, rd_eq (by omega), ok_bind]
  rfl

theorem sigLoop_done {data : List Nat} {e o : Nat} (h : ¬ o + 2 ≤ e) (f : Nat)
    (acc : List Nat) : sigLoop data e f o acc = .ok acc := by
  cases f <;> simp [sigLoop, h]

theorem sigLoop_step {data : List Nat} {e o : Nat} (h : o + 2 ≤ e)
    (he : e ≤ data.length) (f : Nat) (acc : List Nat) :
    sigLoop data e (f + 1) o acc = sigLoop data e f (o + 2) (acc ++ [t16 data o]) := by
  rw [sigLoop, if_pos h, rd_eq (by omega), ok_bind, rd_eq (by omega), ok_bind]
  rfl

theorem alpnLoop_done {data : List Nat} {e o : Nat} (h : ¬ o + 1 ≤ e) (f : Nat)
    (acc : List (List Nat)) : alpnLoop data e f o acc = .ok acc := by
  cases f <;> simp [alpnLoop, h]

theorem alpnLoop_break {data : List Nat} {e o : Nat} (h : o + 1 ≤ e) (he : e ≤ data.length)
    (hb : ¬ o + 1 + b8 data o ≤ e) (f : Nat) (acc : List (List Nat)) :
    alpnLoop data e (f + 1) o acc = .ok acc := by
  rw [alpnLoop, if_pos h, rd_eq (by omega), ok_bind]
  simp only [hb, if_false]

theorem alpnLoop_step {data : List Nat} {e o : Nat} (h : o + 1 ≤ e) (he : e ≤ data.length)
    (hb : o + 1 + b8 data o ≤ e) (f : Nat) (acc : List (List Nat)) :
    alpnLoop data e (f + 1) o acc =
      alpnLoop data e f (o + 1 + b8 data o)
        (acc ++ [(data.drop (o + 1)).take (b8 data o)]) := by
  rw [alpnLoop, if_pos h, rd_eq (by omega), ok_bind]
  simp only [hb, if_true]
  have hs : slice data (o + 1) (o + 1 + b8 data o) =
      .ok ((data.drop (o + 1)).take (b8 data o)) := by
    have : o + 1 ≤ o + 1 + b8 data o ∧ o + 1 + b8 data o ≤ data.length := by omega
    simp [slice, this]
  rw [hs, ok_bind]

theorem sigSearch_done {data : List Nat} {e o : Nat} (h : ¬ o + 4 ≤ e) (f : Nat) :
    sigSearch data e f o = .ok [] := by
  cases f <;> simp [sigSearch, h]

theorem sigSearch_hit {data : List Nat} {e o : Nat} (h : o + 4 ≤ e) (he : e ≤ data.length)
    (ht : b16 data o = 0x000d) (h2 : o + 6 ≤ e) (f : Nat) :
    sigSearch data e (f + 1) o =
      sigLoop data (if o + 6 + b16 data (o + 4) > e then e else o + 6 + b16 data (o + 4))
        (data.length + 1) (o + 6) [] := by
  rw [sigSearch, if_pos h, rd_eq (by omega), ok_bind, rd_eq (by omega), ok_bind,
    rd_eq (by omega), ok_bind, rd_eq (by omega), ok_bind]
  have hc : (b8 data o <<< 8 ||| b8 data (o + 1)) = 0x000d ∧ o + 4 + 2 ≤ e := ⟨ht, by omega⟩
  simp only [hc, and_self, if_true]
  rw [rd_eq (by omega), ok_bind, rd_eq (by omega), ok_bind]
  rfl

theorem sigSearch_miss {data : List Nat} {e o : Nat} (h : o + 4 ≤ e) (he : e ≤ data.length)
    (hm : ¬ (b16 data o = 0x000d ∧ o + 6 ≤ e)) (f : Nat) :
    sigSearch data e (f + 1) o = sigSearch data e f (o + 4 + b16 data (o + 2)) := by
  rw [sigSearch, if_pos h, rd_eq (by omega), ok_bind, rd_eq (by omega), ok_bind,
    rd_eq (by omega), ok_bind, rd_eq (by omega), ok_bind]
  have hc : ¬ ((b8 data o <<< 8 ||| b8 data (o + 1)) = 0x000d ∧ o + 4 + 2 ≤ e) := hm
  simp only [hc, if_false]
  rfl

theorem alpnSearch_done {data : List Nat} {e o : Nat} (h : ¬ o + 4 ≤ e) (f : Nat) :
    alpnSearch data e f o = .ok [] := by
  cases f <;> simp [alpnSearch, h]

theorem alpnSearch_hit {data : List Nat} {e o : Nat} (h : o + 4 ≤ e) (he : e ≤ data.length)
    (ht : b16 data o = 0x0010) (h2 : o + 6 ≤ e) (f : Nat) :
    alpnSearch data e (f + 1) o =
      alpnLoop data (if o + 6 + b16 data (o + 4) > e then e else o + 6 + b16 data (o + 4))
        (data.length + 1) (o + 6) [] := by
  rw [alpnSearch, if_pos h, rd_eq (by omega), ok_bind, rd_eq (by omega), ok_bind,
    rd_eq (by omega), ok_bind, rd_eq (by omega), ok_bind]
  have hc : (b8 data o <<< 8 ||| b8 data (o + 1)) = 0x0010 ∧ o + 4 + 2 ≤ e := ⟨ht, by omega⟩
  simp only [hc, and_self, if_true]
  rw [rd_eq (by omega), ok_bind, rd_eq (by omega), ok_bind]
  rfl

theorem alpnSearch_miss {data : List Nat} {e o : Nat} (h : o + 4 ≤ e) (he : e ≤ data.length)
    (hm : ¬ (b16 data o = 0x0010 ∧ o + 6 ≤ e)) (f : Nat) :
    alpnSearch data e (f + 1) o = alpnSearch data e f (o + 4 + b16 data (o + 2)) := by
  rw [alpnSearch, if_pos h, rd_eq (by omega), ok_bind, rd_eq (by omega), ok_bind,
    rd_eq (by omega), ok_bind, rd_eq (by omega), ok_bind]
  have hc : ¬ ((b8 data o <<< 8 ||| b8 data (o + 1)) = 0x0010 ∧ o + 4 + 2 ≤ e) := hm
  simp only [hc, if_false]
  rfl

/-! ### The loops end normally -/

theorem extensionsLoop_total {data : List Nat} {e : Nat} (he : e ≤ data.length) :
    ∀ (f o : Nat) (acc : List Nat), e < o + f →
      ∃ zs, extensionsLoop data e f o acc = .ok (acc ++ zs) := by
  intro f
  induction f with
  | zero =>
    intro o acc hf
    exact ⟨[], by rw [extensionsLoop_done (by omega), List.append_nil]⟩
  | succ f ih =>
    intro o acc hf
    by_cases h : o + 4 ≤ e
    · obtain ⟨zs, hzs⟩ := ih (o + 4 + b16 data (o + 2)) (acc ++ [t16 data o]) (by omega)
      exact ⟨t16 data o :: zs, by rw [extensionsLoop_step h he, hzs, List.append_assoc]; rfl⟩
    · exact ⟨[], by rw [extensionsLoop_done h, List.append_nil]⟩

theorem sigLoop_total {data : List Nat} {e : Nat} (he : e ≤ data.length) :
    ∀ (f o : Nat) (acc : List Nat), e < o + f →
      ∃ zs, sigLoop data e f o acc = .ok (acc ++ zs) := by
  intro f
  induction f with
  | zero =>
    intro o acc hf
    exact ⟨[], by rw [sigLoop_done (by omega), List.append_nil]⟩
  | succ f ih =>
    intro o acc hf
    by_cases h : o + 2 ≤ e
    · obtain ⟨zs, hzs⟩ := ih (o + 2) (acc ++ [t16 data o]) (by omega)
      exact ⟨t16 data o :: zs, by rw [sigLoop_step h he, hzs, List.append_assoc]; rfl⟩
    · exact ⟨[], by rw [sigLoop_done h, List.append_nil]⟩

theorem alpnLoop_total {data : List Nat} {e : Nat} (he : e ≤ data.length) :
    ∀ (f o : Nat) (acc : List (List Nat)), e < o + f →
      ∃ zs, alpnLoop data e f o acc = .ok (acc ++ zs) := by
  intro f
  induction f with
  | zero =>
    intro o acc hf
    exact ⟨[], by rw [alpnLoop_done (by omega), List.append_nil]⟩
  | succ f ih =>
    intro o acc hf
    by_cases h : o + 1 ≤ e
    · by_cases hb : o + 1 + b8 data o ≤ e
      · obtain ⟨zs, hzs⟩ := ih (o + 1 + b8 data o)
          (acc ++ [(data.drop (o + 1)).take (b8 data o)]) (by omega)
        exact ⟨_ :: zs, by rw [alpnLoop_step h he hb, hzs, List.append_assoc]; rfl⟩
      · exact ⟨[], by rw [alpnLoop_break h he hb, List.append_nil]⟩
    · exact ⟨[], by rw [alpnLoop_done h, List.append_nil]⟩

theorem sigEnd_le {e x : Nat} : (if x > e then e else x) ≤ e := by
  split <;> omega

theorem sigSearch_total {data : List Nat} {e : Nat} (he : e ≤ data.length) :
    ∀ (f o : Nat), e < o + f → ∃ zs, sigSearch data e f o = .ok zs := by
  intro f
  induction f with
  | zero =>
    intro o hf
    exact ⟨[], sigSearch_done (by omega) 0⟩
  | succ f ih =>
    intro o hf
    by_cases h : o + 4 ≤ e
    · by_cases hm : b16 data o = 0x000d ∧ o + 6 ≤ e
      · rw [sigSearch_hit h he hm.1 hm.2]
        obtain ⟨zs, hzs⟩ := sigLoop_total
          (e := if o + 6 + b16 data (o + 4) > e then e else o + 6 + b16 data (o + 4))
          (le_trans sigEnd_le he) (data.length + 1) (o + 6) []
          (by have := @sigEnd_le e (o + 6 + b16 data (o + 4)); omega)
        exact ⟨zs, by simpa using hzs⟩
      · rw [sigSearch_miss h he hm]
        exact ih _ (by omega)
    · exact ⟨[], sigSearch_done h _⟩

theorem alpnSearch_total {data : List Nat} {e : Nat} (he : e ≤ data.length) :
    ∀ (f o : Nat), e < o + f → ∃ zs, alpnSearch data e f o = .ok zs := by
  intro f
  induction f with
  | zero =>
    intro o hf
    exact ⟨[], alpnSearch_done (by omega) 0⟩
  | succ f ih =>
    intro o hf
    by_cases h : o + 4 ≤ e
    · by_cases hm : b16 data o = 0x0010 ∧ o + 6 ≤ e
      · rw [alpnSearch_hit h he hm.1 hm.2]
        obtain ⟨zs, hzs⟩ := alpnLoop_total
          (e := if o + 6 + b16 data (o + 4) > e then e else o + 6 + b16 data (o + 4))
          (le_trans sigEnd_le he) (data.length + 1) (o + 6) []
          (by have := @sigEnd_le e (o + 6 + b16 data (o + 4)); omega)
        exact ⟨zs, by simpa using hzs⟩
      · rw [alpnSearch_miss h he hm]
        exact ih _ (by omega)
    · exact ⟨[], alpnSearch_done h _⟩

theorem walk_end_le {data : List Nat} {o e : Nat} (h : walk data = some (o, e)) :
    e ≤ data.length ∧ o ≤ e ∧ 46 ≤ o := by
  simp only [walk] at h
  have h44 : 46 ≤ extStart data := by simp only [extStart]; omega
  split_ifs at h <;> simp only [Option.some.injEq, Prod.mk.injEq] at h <;> omega

theorem extractSignatureAlgorithms_eq (data : List Nat) :
    extractSignatureAlgorithms data =
      match walk data with
      | none => .ok []
      | some (o, e) => sigSearch data e (data.length + 1) o := by
  rw [extractSignatureAlgorithms, headerWalk_eq, ok_bind]

theorem extractALPN_eq (data : List Nat) :
    extractALPN data =
      match walk data with
      | none => .ok []
      | some (o, e) => alpnSearch data e (data.length + 1) o := by
  rw [extractALPN, headerWalk_eq, ok_bind]

theorem extractExtensions_eq {data : List Nat} (h5 : 5 ≤ data.length) :
    extractExtensions data =
      if b8 data 4 ||| (b8 data 3 <<< 8) > 896 then .ok [] else
      match walk data with
      | none => .ok []
      | some (o, e) => extensionsLoop data e (data.length + 1) o [] := by
  rw [extractExtensions, rd_eq (by omega), ok_bind, rd_eq (by omega), ok_bind]
  dsimp only
  split
  · rfl
  · rw [headerWalk_eq, ok_bind]

theorem extractExtensions_total {data : List Nat} (h5 : 5 ≤ data.length) :
    ∃ r, extractExtensions data = .ok r := by
  rw [extractExtensions_eq h5]
  split
  · exact ⟨[], rfl⟩
  · cases hw : walk data with
    | none => exact ⟨[], rfl⟩
    | some p =>
      obtain ⟨o, e⟩ := p
      obtain ⟨zs, hzs⟩ := extensionsLoop_total (walk_end_le hw).1 (data.length + 1) o []
        (by have := walk_end_le hw; omega)
      exact ⟨zs, by simpa using hzs⟩

theorem extractSignatureAlgorithms_total (data : List Nat) :
    ∃ r, extractSignatureAlgorithms data = .ok r := by
  rw [extractSignatureAlgorithms_eq]
  cases hw : walk data with
  | none => exact ⟨[], rfl⟩
  | some p =>
    obtain ⟨o, e⟩ := p
    exact sigSearch_total (walk_end_le hw).1 (data.length + 1) o
      (by have := walk_end_le hw; omega)

theorem extractALPN_total (data : List Nat) : ∃ r, extractALPN data = .ok r := by
  rw [extractALPN_eq]
  cases hw : walk data with
  | none => exact ⟨[], rfl⟩
  | some p =>
    obtain ⟨o, e⟩ := p
    exact alpnSearch_total (walk_end_le hw).1 (data.length + 1) o
      (by have := walk_end_le hw; omega)

/-! ### Big-endian reads as arithmetic -/

theorem shl8_or {a b : Nat} (hb : b < 256) : (a <<< 8) ||| b = 256 * a + b := by
  have h := Nat.mul_add_lt_is_or (i := 8) (b := b) (by simpa using hb) a
  rw [Nat.shiftLeft_eq, Nat.mul_comm a]
  simpa using h.symm

theorem or_shl8 {a b : Nat} (hb : b < 256) : b ||| (a <<< 8) = 256 * a + b := by
  rw [Nat.lor_comm, shl8_or hb]

theorem shl8_mod_or {a b : Nat} (ha : a < 256) (hb : b < 256) :
    ((a <<< 8) % 65536) ||| b = 256 * a + b := by
  have : (a <<< 8) % 65536 = a <<< 8 := by
    rw [Nat.shiftLeft_eq]; apply Nat.mod_eq_of_lt; omega
  rw [this, shl8_or hb]

/-! ### GREASE values -/

theorem and_div_two_pow (a b k : Nat) : (a &&& b) / 2 ^ k = a / 2 ^ k &&& b / 2 ^ k := by
  induction k with
  | zero => simp
  | succ k ih => rw [Nat.pow_succ, ← Nat.div_div_eq_div_mul, ih, Nat.and_div_two,
      Nat.div_div_eq_div_mul, Nat.div_div_eq_div_mul]

theorem and_0f0f (v : Nat) : v &&& 0x0f0f = 256 * (v / 256 % 16) + v % 16 := by
  have hq : (v &&& 0x0f0f) / 256 = v / 256 % 16 := by
    have h := and_div_two_pow v 0x0f0f 8
    have e : (0x0f0f : Nat) / 2 ^ 8 = 2 ^ 4 - 1 := by decide
    rw [e, Nat.and_pow_two_sub_one_eq_mod] at h
    simpa using h
  have hr : (v &&& 0x0f0f) % 256 = v % 16 := by
    have h := Nat.and_pow_two_sub_one_eq_mod (v &&& 0x0f0f) 8
    rw [Nat.and_assoc] at h
    have e : (0x0f0f : Nat) &&& (2 ^ 8 - 1) = 2 ^ 4 - 1 := by decide
    rw [e, Nat.and_pow_two_sub_one_eq_mod] at h
    simpa using h.symm
  omega

/-- C1. On 16-bit values `isGREASE` holds exactly of the sixteen constants
`0x0a0a, 0x1a1a, ..., 0xfafa`, that is of `0x1010 * k + 0x0a0a` with `k < 16`; in particular
it fails at `0x0aa0`. -/
theorem isGREASE_iff_canonical (v : Nat) (hv : v < 65536) :
    (isGREASE v = true ↔ ∃ k, k < 16 ∧ v = 0x1010 * k + 0x0a0a) ∧
      (isGREASE v = true ↔ v ∈ [0x0a0a, 0x1a1a, 0x2a2a, 0x3a3a, 0x4a4a, 0x5a5a, 0x6a6a, 0x7a7a,
        0x8a8a, 0x9a9a, 0xaaaa, 0xbaba, 0xcaca, 0xdada, 0xeaea, 0xfafa]) ∧
      isGREASE 0x0aa0 = false := by
  have h15 : v / 2 ^ 4 &&& 15 = v / 16 % 16 := by
    have h := Nat.and_pow_two_sub_one_eq_mod (v / 2 ^ 4) 4
    simpa using h
  have key : isGREASE v = true ↔ ∃ k, k < 16 ∧ v = 0x1010 * k + 0x0a0a := by
    simp only [isGREASE, Bool.and_eq_true, beq_iff_eq, and_0f0f, Nat.shiftRight_eq_div_pow, h15]
    obtain ⟨n0, n1, n2, n3, e0, e1, e2, e3, e, l0, l1, l2⟩ :
        ∃ n0 n1 n2 n3, v % 16 = n0 ∧ v / 16 % 16 = n1 ∧ v / 256 % 16 = n2 ∧ v / 2 ^ 12 = n3 ∧
          v = 4096 * n3 + 256 * n2 + 16 * n1 + n0 ∧ n0 < 16 ∧ n1 < 16 ∧ n2 < 16 :=
      ⟨_, _, _, _, rfl, rfl, rfl, rfl, by omega, by omega, by omega, by omega⟩
    rw [e0, e1, e2, e3]
    constructor
    · rintro ⟨h1, h2⟩
      exact ⟨n3, by omega, by omega⟩
    · rintro ⟨k, hk, hk2⟩
      interval_cases k <;> omega
  refine ⟨key, ?_, by decide⟩
  rw [key]
  constructor
  · rintro ⟨k, hk, rfl⟩
    interval_cases k <;> simp
  · intro h
    simp only [List.mem_cons, List.mem_singleton, List.not_mem_nil, or_false] at h
    rcases h with h | h | h | h | h | h | h | h | h | h | h | h | h | h | h | h
    · exact ⟨0, by omega, by omega⟩
    · exact ⟨1, by omega, by omega⟩
    · exact ⟨2, by omega, by omega⟩
    · exact ⟨3, by omega, by omega⟩
    · exact ⟨4, by omega, by omega⟩
    · exact ⟨5, by omega, by omega⟩
    · exact ⟨6, by omega, by omega⟩
    · exact ⟨7, by omega, by omega⟩
    · exact ⟨8, by omega, by omega⟩
    · exact ⟨9, by omega, by omega⟩
    · exact ⟨10, by omega, by omega⟩
    · exact ⟨11, by omega, by omega⟩
    · exact ⟨12, by omega, by omega⟩
    · exact ⟨13, by omega, by omega⟩
    · exact ⟨14, by omega, by omega⟩
    · exact ⟨15, by omega, by omega⟩

/-- Witness of C1 at the GREASE value `0x3a3a`. -/
theorem isGREASE_iff_canonical_witness :
    (0x3a3a < 65536) ∧ ((isGREASE 0x3a3a = true ↔ ∃ k, k < 16 ∧ 0x3a3a = 0x1010 * k + 0x0a0a) ∧
      (isGREASE 0x3a3a = true ↔ 0x3a3a ∈ [0x0a0a, 0x1a1a, 0x2a2a, 0x3a3a, 0x4a4a, 0x5a5a,
        0x6a6a, 0x7a7a, 0x8a8a, 0x9a9a, 0xaaaa, 0xbaba, 0xcaca, 0xdada, 0xeaea, 0xfafa]) ∧
      isGREASE 0x0aa0 = false) :=
  ⟨by decide, isGREASE_iff_canonical 0x3a3a (by decide)⟩

/-- C2. On a buffer of at least 43 bytes the three extraction functions end normally with a
list: neither an out-of-range index or slice bound nor an endless loop can occur, whatever the
bytes are. -/
theorem parsers_never_fault (data : List Nat) (h : 43 ≤ data.length) :
    (∃ r, extractExtensions data = .ok r) ∧
      (∃ r, extractSignatureAlgorithms data = .ok r) ∧
      (∃ r, extractALPN data = .ok r) :=
  ⟨extractExtensions_total (by omega), extractSignatureAlgorithms_total data,
    extractALPN_total data⟩

/-- Witness of C2 on a buffer of 60 bytes `0xff`: every declared length overruns. -/
theorem parsers_never_fault_witness :
    43 ≤ (List.replicate 60 255).length ∧
      ((∃ r, extractExtensions (List.replicate 60 255) = .ok r) ∧
      (∃ r, extractSignatureAlgorithms (List.replicate 60 255) = .ok r) ∧
      (∃ r, extractALPN (List.replicate 60 255) = .ok r)) :=
  ⟨by decide, parsers_never_fault (List.replicate 60 255) (by decide)⟩

/-- Below 43 bytes the two search functions return the empty list, and so does
`extractExtensions` once bytes 3 and 4 exist. -/
theorem short_buffer_empty (data : List Nat) (h : data.length < 43) :
    extractSignatureAlgorithms data = .ok [] ∧ extractALPN data = .ok [] ∧
      (5 ≤ data.length → extractExtensions data = .ok []) := by
  have hw : walk data = none := by
    have h44 : 46 ≤ extStart data := by simp only [extStart]; omega
    simp only [walk]; rw [if_neg (by omega)]
  refine ⟨by rw [extractSignatureAlgorithms_eq, hw], by rw [extractALPN_eq, hw], fun h5 => ?_⟩
  rw [extractExtensions_eq h5, hw]
  split <;> rfl

/-- Below 5 bytes `extractExtensions` panics on `data[4]` or `data[3]`, which it reads before
its length test. -/
theorem extractExtensions_lt5 (data : List Nat) (h : data.length < 5) :
    extractExtensions data = .error .outOfBounds := by
  rw [extractExtensions, rd_oob (by omega)]
  rfl

/-- C3 (fails on the code). On the empty buffer, and on a four-byte buffer,
`extractExtensions` does not return the empty list: it indexes `data[4]` before the length test
and panics, while the two sibling functions test the length first and return the empty list. -/
theorem extractExtensions_short_buffer_panics :
    extractExtensions [] = .error .outOfBounds ∧
      extractExtensions [1, 0, 0, 0] = .error .outOfBounds ∧
      extractSignatureAlgorithms [] = .ok [] ∧ extractALPN [] = .ok [] := by
  decide

/-- C9. When bytes 3 and 4 exist and their big-endian value exceeds 896, `extractExtensions`
returns the empty list, whatever else the buffer holds. -/
theorem extractExtensions_handshakeLen_gate (data : List Nat) (h5 : 5 ≤ data.length)
    (hbytes : ∀ b ∈ data, b < 256) (hlen : 256 * data.getD 3 0 + data.getD 4 0 > 896) :
    extractExtensions data = .ok [] := by
  have h4 : b8 data 4 < 256 := by
    have : data.getD 4 0 ∈ data := by
      rw [List.getD_eq_getElem _ _ (by omega)]; exact List.getElem_mem _
    exact hbytes _ this
  rw [extractExtensions_eq h5, or_shl8 h4, if_pos (by simpa only [b8] using hlen)]

/-- Witness of C9: declared length `0x0381 = 897` in a 50-byte buffer. -/
theorem extractExtensions_handshakeLen_gate_witness :
    extractExtensions ([22, 3, 1, 3, 129] ++ List.replicate 45 0) = .ok [] :=
  extractExtensions_handshakeLen_gate _ (by decide) (by decide) (by decide)

/-! ### Truncation: a prefix of the buffer -/

theorem b8_trunc {P B : List Nat} (h : P <+: B) {i : Nat} (hi : i < P.length) :
    b8 P i = b8 B i := by
  obtain ⟨t, rfl⟩ := h
  simp only [b8, List.getD_eq_getElem?_getD, List.getElem?_append_left hi]

theorem b16_trunc {P B : List Nat} (h : P <+: B) {i : Nat} (hi : i + 1 < P.length) :
    b16 P i = b16 B i := by
  simp only [b16, b8_trunc h (show i < P.length by omega), b8_trunc h hi]

theorem t16_trunc {P B : List Nat} (h : P <+: B) {i : Nat} (hi : i + 1 < P.length) :
    t16 P i = t16 B i := by
  simp only [t16, b8_trunc h (show i < P.length by omega), b8_trunc h hi]

theorem drop_take_trunc {P B : List Nat} (h : P <+: B) {o n : Nat} (hn : o + n ≤ P.length) :
    (P.drop o).take n = (B.drop o).take n := by
  obtain ⟨t, rfl⟩ := h
  rw [List.drop_append_of_le_length (by omega), List.take_append_of_le_length]
  rw [List.length_drop]; omega

theorem extStart_trunc {P B : List Nat} (h : P <+: B) (hs : extStart P ≤ P.length) :
    extStart B = extStart P := by
  simp only [extStart] at hs ⊢
  have e1 : b8 P 43 = b8 B 43 := b8_trunc h (by omega)
  rw [← e1]
  have e2 : b16 P (44 + b8 P 43) = b16 B (44 + b8 P 43) := b16_trunc h (by omega)
  rw [← e2]
  have e3 : b8 P (44 + b8 P 43 + 2 + b16 P (44 + b8 P 43)) =
      b8 B (44 + b8 P 43 + 2 + b16 P (44 + b8 P 43)) := b8_trunc h (by omega)
  rw [← e3]

theorem extStart_ge (data : List Nat) : 49 ≤ extStart data := by
  simp only [extStart]; omega

theorem walk_trunc {P B : List Nat} (h : P <+: B) {o eP : Nat}
    (hw : walk P = some (o, eP)) : ∃ eB, walk B = some (o, eB) ∧ eP ≤ eB := by
  have hl : P.length ≤ B.length := h.length_le
  have h49 := extStart_ge P
  simp only [walk] at hw ⊢
  split_ifs at hw with h1 h2
  all_goals simp only [Option.some.injEq, Prod.mk.injEq] at hw
  all_goals obtain ⟨rfl, rfl⟩ := hw
  all_goals
    have e : b16 P (extStart P - 2) = b16 B (extStart P - 2) := b16_trunc h (by omega)
    rw [extStart_trunc h h1, if_pos (by omega), ← e]
    refine ⟨_, rfl, ?_⟩
    split <;> omega

theorem extensionsLoop_trunc {P B : List Nat} (h : P <+: B) {eP eB : Nat} (hle : eP ≤ eB)
    (hP : eP ≤ P.length) (hB : eB ≤ B.length) :
    ∀ (fP fB o : Nat) (acc : List Nat), eP < o + fP → eB < o + fB →
      ∃ xs ys, extensionsLoop P eP fP o acc = .ok (acc ++ xs) ∧
        extensionsLoop B eB fB o acc = .ok (acc ++ ys) ∧ xs <+: ys := by
  intro fP
  induction fP with
  | zero =>
    intro fB o acc h1 h2
    obtain ⟨ys, hys⟩ := extensionsLoop_total hB fB o acc h2
    exact ⟨[], ys, by rw [extensionsLoop_done (by omega), List.append_nil], hys,
      List.nil_prefix⟩
  | succ fP ih =>
    intro fB o acc h1 h2
    by_cases hc : o + 4 ≤ eP
    · obtain ⟨fB, rfl⟩ : ∃ k, fB = k + 1 := ⟨fB - 1, by omega⟩
      obtain ⟨xs, ys, hx, hy, hp⟩ := ih fB (o + 4 + b16 P (o + 2)) (acc ++ [t16 P o])
        (by omega) (by omega)
      refine ⟨t16 P o :: xs, t16 P o :: ys, ?_, ?_, ?_⟩
      · rw [extensionsLoop_step hc hP, hx, List.append_assoc]; rfl
      · rw [extensionsLoop_step (by omega) hB, ← b16_trunc h (by omega),
          ← t16_trunc h (by omega), hy, List.append_assoc]; rfl
      · exact (List.prefix_cons_inj _).2 hp
    · obtain ⟨ys, hys⟩ := extensionsLoop_total hB fB o acc h2
      exact ⟨[], ys, by rw [extensionsLoop_done hc, List.append_nil], hys, List.nil_prefix⟩

theorem sigLoop_trunc {P B : List Nat} (h : P <+: B) {eP eB : Nat} (hle : eP ≤ eB)
    (hP : eP ≤ P.length) (hB : eB ≤ B.length) :
    ∀ (fP fB o : Nat) (acc : List Nat), eP < o + fP → eB < o + fB →
      ∃ xs ys, sigLoop P eP fP o acc = .ok (acc ++ xs) ∧
        sigLoop B eB fB o acc = .ok (acc ++ ys) ∧ xs <+: ys := by
  intro fP
  induction fP with
  | zero =>
    intro fB o acc h1 h2
    obtain ⟨ys, hys⟩ := sigLoop_total hB fB o acc h2
    exact ⟨[], ys, by rw [sigLoop_done (by omega), List.append_nil], hys, List.nil_prefix⟩
  | succ fP ih =>
    intro fB o acc h1 h2
    by_cases hc : o + 2 ≤ eP
    · obtain ⟨fB, rfl⟩ : ∃ k, fB = k + 1 := ⟨fB - 1, by omega⟩
      obtain ⟨xs, ys, hx, hy, hp⟩ := ih fB (o + 2) (acc ++ [t16 P o]) (by omega) (by omega)
      refine ⟨t16 P o :: xs, t16 P o :: ys, ?_, ?_, ?_⟩
      · rw [sigLoop_step hc hP, hx, List.append_assoc]; rfl
      · rw [sigLoop_step (by omega) hB, ← t16_trunc h (by omega), hy, List.append_assoc]; rfl
      · exact (List.prefix_cons_inj _).2 hp
    · obtain ⟨ys, hys⟩ := sigLoop_total hB fB o acc h2
      exact ⟨[], ys, by rw [sigLoop_done hc, List.append_nil], hys, List.nil_prefix⟩

theorem alpnLoop_trunc {P B : List Nat} (h : P <+: B) {eP eB : Nat} (hle : eP ≤ eB)
    (hP : eP ≤ P.length) (hB : eB ≤ B.length) :
    ∀ (fP fB o : Nat) (acc : List (List Nat)), eP < o + fP → eB < o + fB →
      ∃ xs ys, alpnLoop P eP fP o acc = .ok (acc ++ xs) ∧
        alpnLoop B eB fB o acc = .ok (acc ++ ys) ∧ xs <+: ys := by
  intro fP
  induction fP with
  | zero =>
    intro fB o acc h1 h2
    obtain ⟨ys, hys⟩ := alpnLoop_total hB fB o acc h2
    exact ⟨[], ys, by rw [alpnLoop_done (by omega), List.append_nil], hys, List.nil_prefix⟩
  | succ fP ih =>
    intro fB o acc h1 h2
    obtain ⟨ys0, hys0⟩ := alpnLoop_total hB fB o acc h2
    by_cases hc : o + 1 ≤ eP
    · by_cases hb : o + 1 + b8 P o ≤ eP
      · obtain ⟨fB, rfl⟩ : ∃ k, fB = k + 1 := ⟨fB - 1, by omega⟩
        obtain ⟨xs, ys, hx, hy, hp⟩ := ih fB (o + 1 + b8 P o)
          (acc ++ [(P.drop (o + 1)).take (b8 P o)]) (by omega) (by omega)
        refine ⟨(P.drop (o + 1)).take (b8 P o) :: xs, (P.drop (o + 1)).take (b8 P o) :: ys,
          ?_, ?_, ?_⟩
        · rw [alpnLoop_step hc hP hb, hx, List.append_assoc]; rfl
        · have e8 : b8 P o = b8 B o := b8_trunc h (by omega)
          rw [alpnLoop_step (by omega) hB (by omega), ← e8,
            ← drop_take_trunc h (show o + 1 + b8 P o ≤ P.length by omega), hy,
            List.append_assoc]; rfl
        · exact (List.prefix_cons_inj _).2 hp
      · exact ⟨[], ys0, by rw [alpnLoop_break hc hP hb, List.append_nil], hys0,
          List.nil_prefix⟩
    · exact ⟨[], ys0, by rw [alpnLoop_done hc, List.append_nil], hys0, List.nil_prefix⟩

theorem clamp_mono {eP eB x : Nat} (hle : eP ≤ eB) :
    (if x > eP then eP else x) ≤ (if x > eB then eB else x) := by
  split <;> split <;> omega

theorem sigSearch_trunc {P B : List Nat} (h : P <+: B) {eP eB : Nat} (hle : eP ≤ eB)
    (hP : eP ≤ P.length) (hB : eB ≤ B.length) :
    ∀ (fP fB o : Nat), eP < o + fP → eB < o + fB →
      ∃ xs ys, sigSearch P eP fP o = .ok xs ∧ sigSearch B eB fB o = .ok ys ∧ xs <+: ys := by
  intro fP
  induction fP with
  | zero =>
    intro fB o h1 h2
    obtain ⟨ys, hys⟩ := sigSearch_total hB fB o h2
    exact ⟨[], ys, sigSearch_done (by omega) _, hys, List.nil_prefix⟩
  | succ fP ih =>
    intro fB o h1 h2
    obtain ⟨ys0, hys0⟩ := sigSearch_total hB fB o h2
    by_cases hc : o + 4 ≤ eP
    · obtain ⟨fB, rfl⟩ : ∃ k, fB = k + 1 := ⟨fB - 1, by omega⟩
      have et : b16 P o = b16 B o := b16_trunc h (by omega)
      have el : b16 P (o + 2) = b16 B (o + 2) := b16_trunc h (by omega)
      by_cases ht : b16 P o = 0x000d
      · by_cases h6 : o + 6 ≤ eP
        · have es : b16 P (o + 4) = b16 B (o + 4) := b16_trunc h (by omega)
          obtain ⟨xs, ys, hx, hy, hp⟩ := sigLoop_trunc h
            (clamp_mono (x := o + 6 + b16 P (o + 4)) hle)
            (le_trans sigEnd_le hP) (le_trans sigEnd_le hB)
            (P.length + 1) (B.length + 1) (o + 6) []
            (by have := @sigEnd_le eP (o + 6 + b16 P (o + 4)); omega)
            (by have := @sigEnd_le eB (o + 6 + b16 P (o + 4)); omega)
          refine ⟨xs, ys, ?_, ?_, hp⟩
          · rw [sigSearch_hit hc hP ht h6, hx]; rfl
          · rw [sigSearch_hit (by omega) hB (by rw [← et]; exact ht) (by omega), ← es, hy]; rfl
        · refine ⟨[], ys0, ?_, hys0, List.nil_prefix⟩
          rw [sigSearch_miss hc hP (by omega)]
          exact sigSearch_done (by omega) _
      · obtain ⟨xs, ys, hx, hy, hp⟩ := ih fB (o + 4 + b16 P (o + 2)) (by omega) (by omega)
        refine ⟨xs, ys, ?_, ?_, hp⟩
        · rw [sigSearch_miss hc hP (by tauto), hx]
        · rw [sigSearch_miss (by omega) hB (by rw [← et]; tauto), ← el, hy]
    · exact ⟨[], ys0, sigSearch_done hc _, hys0, List.nil_prefix⟩

theorem alpnSearch_trunc {P B : List Nat} (h : P <+: B) {eP eB : Nat} (hle : eP ≤ eB)
    (hP : eP ≤ P.length) (hB : eB ≤ B.length) :
    ∀ (fP fB o : Nat), eP < o + fP → eB < o + fB →
      ∃ xs ys, alpnSearch P eP fP o = .ok xs ∧ alpnSearch B eB fB o = .ok ys ∧ xs <+: ys := by
  intro fP
  induction fP with
  | zero =>
    intro fB o h1 h2
    obtain ⟨ys, hys⟩ := alpnSearch_total hB fB o h2
    exact ⟨[], ys, alpnSearch_done (by omega) _, hys, List.nil_prefix⟩
  | succ fP ih =>
    intro fB o h1 h2
    obtain ⟨ys0, hys0⟩ := alpnSearch_total hB fB o h2
    by_cases hc : o + 4 ≤ eP
    · obtain ⟨fB, rfl⟩ : ∃ k, fB = k + 1 := ⟨fB - 1, by omega⟩
      have et : b16 P o = b16 B o := b16_trunc h (by omega)
      have el : b16 P (o + 2) = b16 B (o + 2) := b16_trunc h (by omega)
      by_cases ht : b16 P o = 0x0010
      · by_cases h6 : o + 6 ≤ eP
        · have es : b16 P (o + 4) = b16 B (o + 4) := b16_trunc h (by omega)
          obtain ⟨xs, ys, hx, hy, hp⟩ := alpnLoop_trunc h
            (clamp_mono (x := o + 6 + b16 P (o + 4)) hle)
            (le_trans sigEnd_le hP) (le_trans sigEnd_le hB)
            (P.length + 1) (B.length + 1) (o + 6) []
            (by have := @sigEnd_le eP (o + 6 + b16 P (o + 4)); omega)
            (by have := @sigEnd_le eB (o + 6 + b16 P (o + 4)); omega)
          refine ⟨xs, ys, ?_, ?_, hp⟩
          · rw [alpnSearch_hit hc hP ht h6, hx]; rfl
          · rw [alpnSearch_hit (by omega) hB (by rw [← et]; exact ht) (by omega), ← es, hy]; rfl
        · refine ⟨[], ys0, ?_, hys0, List.nil_prefix⟩
          rw [alpnSearch_miss hc hP (by omega)]
          exact alpnSearch_done (by omega) _
      · obtain ⟨xs, ys, hx, hy, hp⟩ := ih fB (o + 4 + b16 P (o + 2)) (by omega) (by omega)
        refine ⟨xs, ys, ?_, ?_, hp⟩
        · rw [alpnSearch_miss hc hP (by tauto), hx]
        · rw [alpnSearch_miss (by omega) hB (by rw [← et]; tauto), ← el, hy]
    · exact ⟨[], ys0, alpnSearch_done hc _, hys0, List.nil_prefix⟩

/-- C8. Truncating the buffer only drops trailing results: for a prefix `P` of `B`, each
extractor ends normally on both buffers and its result on `P` is a prefix of its result on
`B` (for `extractExtensions` once `P` has the five bytes the function reads first). -/
theorem truncation_monotone (P B : List Nat) (h : P <+: B) :
    (∃ xs ys, extractSignatureAlgorithms P = .ok xs ∧ extractSignatureAlgorithms B = .ok ys ∧
        xs <+: ys) ∧
      (∃ xs ys, extractALPN P = .ok xs ∧ extractALPN B = .ok ys ∧ xs <+: ys) ∧
      (5 ≤ P.length →
        ∃ xs ys, extractExtensions P = .ok xs ∧ extractExtensions B = .ok ys ∧ xs <+: ys) := by
  have hl : P.length ≤ B.length := h.length_le
  refine ⟨?_, ?_, fun h5 => ?_⟩
  · obtain ⟨ys0, hys0⟩ := extractSignatureAlgorithms_total B
    rw [extractSignatureAlgorithms_eq P]
    cases hw : walk P with
    | none => exact ⟨[], ys0, rfl, hys0, List.nil_prefix⟩
    | some p =>
      obtain ⟨o, eP⟩ := p
      obtain ⟨eB, hwB, hle⟩ := walk_trunc h hw
      rw [extractSignatureAlgorithms_eq B, hwB]
      have hP := walk_end_le hw
      have hB := walk_end_le hwB
      exact sigSearch_trunc h hle hP.1 hB.1 _ _ o (by omega) (by omega)
  · obtain ⟨ys0, hys0⟩ := extractALPN_total B
    rw [extractALPN_eq P]
    cases hw : walk P with
    | none => exact ⟨[], ys0, rfl, hys0, List.nil_prefix⟩
    | some p =>
      obtain ⟨o, eP⟩ := p
      obtain ⟨eB, hwB, hle⟩ := walk_trunc h hw
      rw [extractALPN_eq B, hwB]
      have hP := walk_end_le hw
      have hB := walk_end_le hwB
      exact alpnSearch_trunc h hle hP.1 hB.1 _ _ o (by omega) (by omega)
  · obtain ⟨ys0, hys0⟩ := extractExtensions_total (show 5 ≤ B.length by omega)
    rw [extractExtensions_eq h5]
    have e3 : b8 P 3 = b8 B 3 := b8_trunc h (by omega)
    have e4 : b8 P 4 = b8 B 4 := b8_trunc h (by omega)
    by_cases hg : b8 P 4 ||| (b8 P 3 <<< 8) > 896
    · rw [if_pos hg]
      exact ⟨[], ys0, rfl, hys0, List.nil_prefix⟩
    · rw [if_neg hg]
      cases hw : walk P with
      | none => exact ⟨[], ys0, rfl, hys0, List.nil_prefix⟩
      | some p =>
        obtain ⟨o, eP⟩ := p
        obtain ⟨eB, hwB, hle⟩ := walk_trunc h hw
        rw [extractExtensions_eq (show 5 ≤ B.length by omega), ← e3, ← e4, if_neg hg, hwB]
        have hP := walk_end_le hw
        have hB := walk_end_le hwB
        obtain ⟨xs, ys, hx, hy, hp⟩ := extensionsLoop_trunc h hle hP.1 hB.1
          (P.length + 1) (B.length + 1) o [] (by omega) (by omega)
        exact ⟨xs, ys, by simpa using hx, by simpa using hy, hp⟩
/-- Witness of C8: the sample Client Hello cut after 80 of its 106 bytes. -/
theorem truncation_monotone_witness :
    (∃ xs ys, extractSignatureAlgorithms (sampleHello.encode.take 80) = .ok xs ∧
        extractSignatureAlgorithms sampleHello.encode = .ok ys ∧ xs <+: ys) ∧
      (∃ xs ys, extractALPN (sampleHello.encode.take 80) = .ok xs ∧
        extractALPN sampleHello.encode = .ok ys ∧ xs <+: ys) ∧
      (5 ≤ (sampleHello.encode.take 80).length →
        ∃ xs ys, extractExtensions (sampleHello.encode.take 80) = .ok xs ∧
          extractExtensions sampleHello.encode = .ok ys ∧ xs <+: ys) :=
  truncation_monotone _ _ (List.take_prefix 80 sampleHello.encode)

/-! ### Reading an encoded buffer -/

theorem b8_at (l r : List Nat) (x k : Nat) (hk : k = l.length) : b8 (l ++ x :: r) k = x := by
  subst hk
  rw [b8, List.getD_append_right _ _ _ _ (Nat.le_refl _), Nat.sub_self, List.getD_cons_zero]

theorem b16_at (l r : List Nat) (n k : Nat) (hk : k = l.length) :
    b16 (l ++ (be16 n ++ r)) k = n := by
  have h0 : b8 (l ++ (be16 n ++ r)) k = n / 256 := b8_at l _ _ k hk
  have h1 : b8 (l ++ (be16 n ++ r)) (k + 1) = n % 256 := by
    have : l ++ (be16 n ++ r) = (l ++ [n / 256]) ++ (n % 256 :: r) := by simp [be16]
    rw [this]
    exact b8_at _ _ _ _ (by simp [hk])
  rw [b16, h0, h1, shl8_or (Nat.mod_lt _ (by omega))]
  omega

theorem t16_at (l r : List Nat) (n k : Nat) (hk : k = l.length) (hn : n < 65536) :
    t16 (l ++ (be16 n ++ r)) k = n := by
  have h0 : b8 (l ++ (be16 n ++ r)) k = n / 256 := b8_at l _ _ k hk
  have h1 : b8 (l ++ (be16 n ++ r)) (k + 1) = n % 256 := by
    have : l ++ (be16 n ++ r) = (l ++ [n / 256]) ++ (n % 256 :: r) := by simp [be16]
    rw [this]
    exact b8_at _ _ _ _ (by simp [hk])
  rw [t16, h0, h1, shl8_mod_or (by omega) (Nat.mod_lt _ (by omega))]
  omega

theorem be16_length (n : Nat) : (be16 n).length = 2 := rfl

theorem Ext.encode_length (x : Ext) : x.encode.length = 4 + x.payload.length := by
  simp [Ext.encode, be16_length]; omega

theorem encodeExts_cons (x : Ext) (xs : List Ext) :
    encodeExts (x :: xs) = x.encode ++ encodeExts xs := by
  simp [encodeExts]

/-- The extension loop on a block of well-formed entries collects their type codes. -/
theorem extensionsLoop_encoded (data suf : List Nat) (e : Nat) :
    ∀ (es : List Ext) (pre acc : List Nat) (f : Nat),
      data = pre ++ (encodeExts es ++ suf) → e = pre.length + (encodeExts es).length →
      (∀ x ∈ es, x.typ < 65536 ∧ x.payload.length < 65536) → e < pre.length + f →
      extensionsLoop data e f pre.length acc = .ok (acc ++ es.map Ext.typ) := by
  intro es
  induction es with
  | nil =>
    intro pre acc f hd he _ _
    rw [extensionsLoop_done (by simp [encodeExts] at he; omega)]
    simp
  | cons x es ih =>
    intro pre acc f hd he hwf hf
    have hx := hwf x (List.mem_cons_self _ _)
    rw [encodeExts_cons] at hd he
    rw [List.length_append, Ext.encode_length] at he
    have hlen : e ≤ data.length := by
      rw [hd]; simp only [List.length_append, Ext.encode_length]; omega
    obtain ⟨f, rfl⟩ : ∃ k, f = k + 1 := ⟨f - 1, by omega⟩
    have ht : t16 data pre.length = x.typ := by
      rw [hd]
      have : pre ++ (x.encode ++ encodeExts es ++ suf) =
          pre ++ (be16 x.typ ++ (be16 x.payload.length ++ x.payload ++ encodeExts es ++ suf)) := by
        simp [Ext.encode]
      rw [this]
      exact t16_at _ _ _ _ rfl hx.1
    have hl : b16 data (pre.length + 2) = x.payload.length := by
      rw [hd]
      have : pre ++ (x.encode ++ encodeExts es ++ suf) =
          (pre ++ be16 x.typ) ++ (be16 x.payload.length ++ (x.payload ++ encodeExts es ++ suf)) := by
        simp [Ext.encode]
      rw [this]
      exact b16_at _ _ _ _ (by simp [be16_length])
    rw [extensionsLoop_step (by omega) hlen, ht, hl]
    have hpre : pre.length + 4 + x.payload.length = (pre ++ x.encode).length := by
      rw [List.length_append, Ext.encode_length]; omega
    rw [hpre, ih (pre ++ x.encode) (acc ++ [x.typ]) f (by rw [hd]; simp)
      (by rw [List.length_append, Ext.encode_length]; omega)
      (fun y hy => hwf y (List.mem_cons_of_mem _ hy))
      (by rw [List.length_append, Ext.encode_length]; omega)]
    simp

/-- On a well-formed Client Hello the header walk stops at the first extension entry, and
the extension block runs to the last byte of the buffer. -/
theorem walk_encode (h : Hello) (hwf : h.WellFormed) :
    ∃ pre, h.encode = pre ++ (encodeExts h.extensions ++ []) ∧
      walk h.encode = some (pre.length, pre.length + (encodeExts h.extensions).length) ∧
      h.encode.length = pre.length + (encodeExts h.extensions).length := by
  obtain ⟨h9, h34, hsid, hcs, hcomp, hblock, -, -⟩ := hwf
  refine ⟨h.header ++ (h.versionRandom ++ (h.sessionID.length :: (h.sessionID ++
    (be16 h.cipherSuites.length ++ (h.cipherSuites ++ (h.compression.length ::
      (h.compression ++ be16 (encodeExts h.extensions).length))))))), ?_, ?_, ?_⟩
  · simp [Hello.encode]
  · have r1 : b8 h.encode 43 = h.sessionID.length := by
      have : h.encode = (h.header ++ h.versionRandom) ++ (h.sessionID.length :: (h.sessionID ++
          (be16 h.cipherSuites.length ++ (h.cipherSuites ++ (h.compression.length ::
            (h.compression ++ (be16 (encodeExts h.extensions).length ++
              encodeExts h.extensions))))))) := by simp [Hello.encode]
      rw [this]
      exact b8_at _ _ _ _ (by simp [h9, h34])
    have r2 : b16 h.encode (44 + h.sessionID.length) = h.cipherSuites.length := by
      have : h.encode = (h.header ++ h.versionRandom ++ [h.sessionID.length] ++ h.sessionID) ++
          (be16 h.cipherSuites.length ++ (h.cipherSuites ++ (h.compression.length ::
            (h.compression ++ (be16 (encodeExts h.extensions).length ++
              encodeExts h.extensions))))) := by simp [Hello.encode]
      rw [this]
      exact b16_at _ _ _ _ (by simp [h9, h34]; omega)
    have r3 : b8 h.encode (44 + h.sessionID.length + 2 + h.cipherSuites.length) =
        h.compression.length := by
      have : h.encode = (h.header ++ h.versionRandom ++ [h.sessionID.length] ++ h.sessionID ++
          be16 h.cipherSuites.length ++ h.cipherSuites) ++ (h.compression.length ::
            (h.compression ++ (be16 (encodeExts h.extensions).length ++
              encodeExts h.extensions))) := by simp [Hello.encode]
      rw [this]
      exact b8_at _ _ _ _ (by simp [h9, h34, be16_length]; omega)
    have r4 : b16 h.encode (44 + h.sessionID.length + 2 + h.cipherSuites.length + 1 +
        h.compression.length) = (encodeExts h.extensions).length := by
      have : h.encode = (h.header ++ h.versionRandom ++ [h.sessionID.length] ++ h.sessionID ++
          be16 h.cipherSuites.length ++ h.cipherSuites ++ [h.compression.length] ++
            h.compression) ++ (be16 (encodeExts h.extensions).length ++
              encodeExts h.extensions) := by simp [Hello.encode]
      rw [this]
      exact b16_at _ _ _ _ (by simp [h9, h34, be16_length]; omega)
    have hs : extStart h.encode = 44 + h.sessionID.length + 2 + h.cipherSuites.length + 1 +
        h.compression.length + 2 := by
      simp only [extStart, r1, r2, r3]
    have hL : h.encode.length = 44 + h.sessionID.length + 2 + h.cipherSuites.length + 1 +
        h.compression.length + 2 + (encodeExts h.extensions).length := by
      simp [Hello.encode, h9, h34, be16_length]; omega
    simp only [walk, hs, Nat.add_sub_cancel, r4, hL]
    rw [if_pos (by omega), if_neg (by omega)]
    simp [h9, h34, be16_length]
    omega
  · simp [Hello.encode, h9, h34, be16_length]; omega

/-- C5. On a well-formed Client Hello buffer whose bytes 3 and 4 declare at most 896,
`extractExtensions` returns the type codes of the extension entries, in wire order with
duplicates and GREASE values kept. -/
theorem extractExtensions_wellFormed (h : Hello) (hwf : h.WellFormed)
    (hlen : 256 * h.header.getD 3 0 + h.header.getD 4 0 ≤ 896) :
    extractExtensions h.encode = .ok (h.extensions.map Ext.typ) := by
  obtain ⟨pre, hd, hw, hL⟩ := walk_encode h hwf
  obtain ⟨h9, h34, hsid, hcs, hcomp, hblock, hext, hbytes⟩ := hwf
  have h5 : 5 ≤ h.encode.length := by
    simp [Hello.encode, h9, h34]; omega
  have e3 : b8 h.encode 3 = h.header.getD 3 0 := by
    simp only [b8, Hello.encode]; exact List.getD_append _ _ _ _ (by omega)
  have e4 : b8 h.encode 4 = h.header.getD 4 0 := by
    simp only [b8, Hello.encode]; exact List.getD_append _ _ _ _ (by omega)
  have h4 : b8 h.encode 4 < 256 := by
    have : b8 h.encode 4 ∈ h.encode := by
      rw [b8, List.getD_eq_getElem _ _ (by omega)]; exact List.getElem_mem _
    exact hbytes _ this
  rw [extractExtensions_eq h5, or_shl8 h4, e3, e4, if_neg (by omega), hw]
  have := extensionsLoop_encoded h.encode [] (pre.length + (encodeExts h.extensions).length)
    h.extensions pre [] (h.encode.length + 1) hd rfl hext (by omega)
  simpa using this

/-- Witness of C5 on the sample Client Hello. -/
theorem extractExtensions_wellFormed_witness :
    extractExtensions sampleHello.encode = .ok [0x0a0a, 0x0000, 0x000d, 0x0010, 0x000d] :=
  extractExtensions_wellFormed sampleHello (by decide) (by decide)

theorem encodeExts_append (xs ys : List Ext) :
    encodeExts (xs ++ ys) = encodeExts xs ++ encodeExts ys := by
  simp [encodeExts]

theorem flatMap_be16_length (codes : List Nat) :
    (codes.flatMap be16).length = 2 * codes.length := by
  induction codes with
  | nil => rfl
  | cons c cs ih => simp [be16_length, ih]; omega

/-- The inner signature loop on `n` encoded codes collects them. -/
theorem sigLoop_encoded (data suf : List Nat) (e : Nat) :
    ∀ (codes pre acc : List Nat) (f : Nat),
      data = pre ++ (codes.flatMap be16 ++ suf) → e = pre.length + 2 * codes.length →
      (∀ c ∈ codes, c < 65536) → e < pre.length + f →
      sigLoop data e f pre.length acc = .ok (acc ++ codes) := by
  intro codes
  induction codes with
  | nil =>
    intro pre acc f _ he _ _
    rw [sigLoop_done (by simp at he; omega)]
    simp
  | cons c cs ih =>
    intro pre acc f hd he hwf hf
    have hc := hwf c (List.mem_cons_self _ _)
    rw [List.length_cons] at he
    have hlen : e ≤ data.length := by
      rw [hd]; simp only [List.length_append, flatMap_be16_length, List.length_cons]; omega
    obtain ⟨f, rfl⟩ : ∃ k, f = k + 1 := ⟨f - 1, by omega⟩
    have ht : t16 data pre.length = c := by
      rw [hd]
      have : pre ++ ((c :: cs).flatMap be16 ++ suf) =
          pre ++ (be16 c ++ (cs.flatMap be16 ++ suf)) := by simp
      rw [this]
      exact t16_at _ _ _ _ rfl hc
    rw [sigLoop_step (by omega) hlen, ht]
    have hpre : pre.length + 2 = (pre ++ be16 c).length := by
      rw [List.length_append, be16_length]
    rw [hpre, ih (pre ++ be16 c) (acc ++ [c]) f (by rw [hd]; simp)
      (by rw [List.length_append, be16_length]; omega)
      (fun y hy => hwf y (List.mem_cons_of_mem _ hy))
      (by rw [List.length_append, be16_length]; omega)]
    simp

theorem alpnBody_cons (s : List Nat) (names : List (List Nat)) :
    alpnBody (s :: names) = s.length :: (s ++ alpnBody names) := by
  simp [alpnBody]

/-- The inner ALPN loop on encoded protocol names collects them. -/
theorem alpnLoop_encoded (data suf : List Nat) (e : Nat) :
    ∀ (names : List (List Nat)) (pre : List Nat) (acc : List (List Nat)) (f : Nat),
      data = pre ++ (alpnBody names ++ suf) → e = pre.length + (alpnBody names).length →
      e < pre.length + f →
      alpnLoop data e f pre.length acc = .ok (acc ++ names) := by
  intro names
  induction names with
  | nil =>
    intro pre acc f _ he _
    rw [alpnLoop_done (by simp [alpnBody] at he; omega)]
    simp
  | cons s names ih =>
    intro pre acc f hd he hf
    rw [alpnBody_cons] at hd he
    simp only [List.length_cons, List.length_append] at he
    have hlen : e ≤ data.length := by
      rw [hd]; simp; omega
    obtain ⟨f, rfl⟩ : ∃ k, f = k + 1 := ⟨f - 1, by omega⟩
    have hb : b8 data pre.length = s.length := by
      rw [hd]
      exact b8_at _ _ _ _ rfl
    have hs : (data.drop (pre.length + 1)).take s.length = s := by
      have : data = (pre ++ [s.length]) ++ (s ++ (alpnBody names ++ suf)) := by
        rw [hd]; simp
      rw [this, List.drop_left' (by simp), List.take_left]
    rw [alpnLoop_step (by omega) hlen (by rw [hb]; omega), hb, hs]
    have hpre : pre.length + 1 + s.length = (pre ++ s.length :: s).length := by
      simp; omega
    rw [hpre, ih (pre ++ s.length :: s) (acc ++ [s]) f (by rw [hd]; simp)
      (by simp; omega) (by simp; omega)]
    simp

/-- The signature search steps over well-formed entries of other types. -/
theorem sigSearch_skip (data : List Nat) (e : Nat) (he : e ≤ data.length) :
    ∀ (es : List Ext) (pre rest : List Nat) (f : Nat),
      data = pre ++ (encodeExts es ++ rest) → pre.length + (encodeExts es).length ≤ e →
      (∀ x ∈ es, x.typ ≠ 0x000d) → e < pre.length + f →
      ∃ f', e < pre.length + (encodeExts es).length + f' ∧
        sigSearch data e f pre.length =
          sigSearch data e f' (pre.length + (encodeExts es).length) := by
  intro es
  induction es with
  | nil =>
    intro pre rest f _ _ _ hf
    exact ⟨f, by simpa [encodeExts] using hf, by simp [encodeExts]⟩
  | cons x es ih =>
    intro pre rest f hd hle hne hf
    rw [encodeExts_cons] at hd hle ⊢
    rw [List.length_append, Ext.encode_length] at hle ⊢
    obtain ⟨f, rfl⟩ : ∃ k, f = k + 1 := ⟨f - 1, by omega⟩
    have ht : b16 data pre.length = x.typ := by
      rw [hd]
      have : pre ++ (x.encode ++ encodeExts es ++ rest) =
          pre ++ (be16 x.typ ++ (be16 x.payload.length ++ x.payload ++ encodeExts es ++ rest)) := by
        simp [Ext.encode]
      rw [this]
      exact b16_at _ _ _ _ rfl
    have hl : b16 data (pre.length + 2) = x.payload.length := by
      rw [hd]
      have : pre ++ (x.encode ++ encodeExts es ++ rest) =
          (pre ++ be16 x.typ) ++ (be16 x.payload.length ++ (x.payload ++ encodeExts es ++ rest)) := by
        simp [Ext.encode]
      rw [this]
      exact b16_at _ _ _ _ (by simp [be16_length])
    have hx := hne x (List.mem_cons_self _ _)
    rw [sigSearch_miss (by omega) he (by rw [ht]; tauto), hl]
    have hpre : pre.length + 4 + x.payload.length = (pre ++ x.encode).length := by
      rw [List.length_append, Ext.encode_length]; omega
    obtain ⟨f', hf', heq⟩ := ih (pre ++ x.encode) rest f (by rw [hd]; simp)
      (by rw [← hpre]; omega) (fun y hy => hne y (List.mem_cons_of_mem _ hy))
      (by rw [← hpre]; omega)
    rw [← hpre] at hf' heq
    exact ⟨f', by omega, by rw [heq]; congr 1; omega⟩

/-- The ALPN search steps over well-formed entries of other types. -/
theorem alpnSearch_skip (data : List Nat) (e : Nat) (he : e ≤ data.length) :
    ∀ (es : List Ext) (pre rest : List Nat) (f : Nat),
      data = pre ++ (encodeExts es ++ rest) → pre.length + (encodeExts es).length ≤ e →
      (∀ x ∈ es, x.typ ≠ 0x0010) → e < pre.length + f →
      ∃ f', e < pre.length + (encodeExts es).length + f' ∧
        alpnSearch data e f pre.length =
          alpnSearch data e f' (pre.length + (encodeExts es).length) := by
  intro es
  induction es with
  | nil =>
    intro pre rest f _ _ _ hf
    exact ⟨f, by simpa [encodeExts] using hf, by simp [encodeExts]⟩
  | cons x es ih =>
    intro pre rest f hd hle hne hf
    rw [encodeExts_cons] at hd hle ⊢
    rw [List.length_append, Ext.encode_length] at hle ⊢
    obtain ⟨f, rfl⟩ : ∃ k, f = k + 1 := ⟨f - 1, by omega⟩
    have ht : b16 data pre.length = x.typ := by
      rw [hd]
      have : pre ++ (x.encode ++ encodeExts es ++ rest) =
          pre ++ (be16 x.typ ++ (be16 x.payload.length ++ x.payload ++ encodeExts es ++ rest)) := by
        simp [Ext.encode]
      rw [this]
      exact b16_at _ _ _ _ rfl
    have hl : b16 data (pre.length + 2) = x.payload.length := by
      rw [hd]
      have : pre ++ (x.encode ++ encodeExts es ++ rest) =
          (pre ++ be16 x.typ) ++ (be16 x.payload.length ++ (x.payload ++ encodeExts es ++ rest)) := by
        simp [Ext.encode]
      rw [this]
      exact b16_at _ _ _ _ (by simp [be16_length])
    have hx := hne x (List.mem_cons_self _ _)
    rw [alpnSearch_miss (by omega) he (by rw [ht]; tauto), hl]
    have hpre : pre.length + 4 + x.payload.length = (pre ++ x.encode).length := by
      rw [List.length_append, Ext.encode_length]; omega
    obtain ⟨f', hf', heq⟩ := ih (pre ++ x.encode) rest f (by rw [hd]; simp)
      (by rw [← hpre]; omega) (fun y hy => hne y (List.mem_cons_of_mem _ hy))
      (by rw [← hpre]; omega)
    rw [← hpre] at hf' heq
    exact ⟨f', by omega, by rw [heq]; congr 1; omega⟩

theorem sigPayload_length (codes : List Nat) : (sigPayload codes).length = 2 + 2 * codes.length := by
  simp only [sigPayload, List.length_append, be16_length, flatMap_be16_length]

theorem alpnPayload_length (names : List (List Nat)) :
    (alpnPayload names).length = 2 + (alpnBody names).length := by
  simp only [alpnPayload, List.length_append, be16_length]

/-- At a signature_algorithms entry with a well-formed payload the search returns its codes. -/
theorem sigSearch_at_entry (data : List Nat) (e : Nat) (he : e ≤ data.length)
    (pre rest : List Nat) (codes : List Nat) (f : Nat)
    (hd : data = pre ++ (Ext.encode ⟨0x000d, sigPayload codes⟩ ++ rest))
    (hle : pre.length + (Ext.encode ⟨0x000d, sigPayload codes⟩).length ≤ e)
    (hc : ∀ c ∈ codes, c < 65536) (hf : e < pre.length + f) :
    sigSearch data e f pre.length = .ok codes := by
  rw [Ext.encode_length, sigPayload_length] at hle
  obtain ⟨f, rfl⟩ : ∃ k, f = k + 1 := ⟨f - 1, by omega⟩
  have hd2 : data = pre ++ (be16 0x000d ++ (be16 (sigPayload codes).length ++
      (be16 (2 * codes.length) ++ (codes.flatMap be16 ++ rest)))) := by
    rw [hd, Ext.encode]
    simp only [sigPayload, List.append_assoc]
  have h1 : b16 data pre.length = 0x000d := by
    rw [hd2, b16_at _ _ _ _ rfl]
  have h2 : b16 data (pre.length + 4) = 2 * codes.length := by
    have : data = (pre ++ be16 0x000d ++ be16 (sigPayload codes).length) ++
        (be16 (2 * codes.length) ++ (codes.flatMap be16 ++ rest)) := by
      rw [hd2]; simp only [List.append_assoc]
    rw [this]
    exact b16_at _ _ _ _ (by simp [be16_length])
  rw [sigSearch_hit (by omega) he h1 (by omega), h2, if_neg (by omega)]
  have hpre : pre.length + 6 = (pre ++ be16 0x000d ++ be16 (sigPayload codes).length ++
      be16 (2 * codes.length)).length := by
    simp [be16_length]
  have := sigLoop_encoded data rest (pre.length + 6 + 2 * codes.length) codes
    (pre ++ be16 0x000d ++ be16 (sigPayload codes).length ++ be16 (2 * codes.length)) []
    (data.length + 1) (by rw [hd2]; simp only [List.append_assoc]) (by rw [← hpre])
    hc (by rw [← hpre]; omega)
  rw [← hpre] at this
  simpa using this

/-- At an ALPN entry with a well-formed payload the search returns its protocol names. -/
theorem alpnSearch_at_entry (data : List Nat) (e : Nat) (he : e ≤ data.length)
    (pre rest : List Nat) (names : List (List Nat)) (f : Nat)
    (hd : data = pre ++ (Ext.encode ⟨0x0010, alpnPayload names⟩ ++ rest))
    (hle : pre.length + (Ext.encode ⟨0x0010, alpnPayload names⟩).length ≤ e)
    (hf : e < pre.length + f) :
    alpnSearch data e f pre.length = .ok names := by
  rw [Ext.encode_length, alpnPayload_length] at hle
  obtain ⟨f, rfl⟩ : ∃ k, f = k + 1 := ⟨f - 1, by omega⟩
  have hd2 : data = pre ++ (be16 0x0010 ++ (be16 (alpnPayload names).length ++
      (be16 (alpnBody names).length ++ (alpnBody names ++ rest)))) := by
    rw [hd, Ext.encode]
    simp only [alpnPayload, List.append_assoc]
  have h1 : b16 data pre.length = 0x0010 := by
    rw [hd2, b16_at _ _ _ _ rfl]
  have h2 : b16 data (pre.length + 4) = (alpnBody names).length := by
    have : data = (pre ++ be16 0x0010 ++ be16 (alpnPayload names).length) ++
        (be16 (alpnBody names).length ++ (alpnBody names ++ rest)) := by
      rw [hd2]; simp only [List.append_assoc]
    rw [this]
    exact b16_at _ _ _ _ (by simp [be16_length])
  rw [alpnSearch_hit (by omega) he h1 (by omega), h2, if_neg (by omega)]
  have hpre : pre.length + 6 = (pre ++ be16 0x0010 ++ be16 (alpnPayload names).length ++
      be16 (alpnBody names).length).length := by
    simp [be16_length]
  have := alpnLoop_encoded data rest (pre.length + 6 + (alpnBody names).length) names
    (pre ++ be16 0x0010 ++ be16 (alpnPayload names).length ++ be16 (alpnBody names).length) []
    (data.length + 1) (by rw [hd2]; simp only [List.append_assoc]) (by rw [← hpre])
    (by rw [← hpre]; omega)
  rw [← hpre] at this
  simpa using this

/-- C6. On a well-formed Client Hello buffer, when the first entry of type `0x000d` in the
extensions block carries a 2-byte length `2n` followed by `n` two-byte codes,
`extractSignatureAlgorithms` returns exactly these codes in wire order, whatever entries follow
(further `0x000d` entries included); when no entry has type `0x000d` it returns the empty
list. -/
theorem extractSignatureAlgorithms_wellFormed (h : Hello) (hwf : h.WellFormed) :
    (∀ (before after : List Ext) (x : Ext) (codes : List Nat),
        h.extensions = before ++ x :: after → (∀ y ∈ before, y.typ ≠ 0x000d) →
        x.typ = 0x000d → x.payload = sigPayload codes → (∀ c ∈ codes, c < 65536) →
        extractSignatureAlgorithms h.encode = .ok codes) ∧
      ((∀ y ∈ h.extensions, y.typ ≠ 0x000d) →
        extractSignatureAlgorithms h.encode = .ok []) := by
  obtain ⟨pre, hd, hw, hL⟩ := walk_encode h hwf
  rw [extractSignatureAlgorithms_eq, hw]
  dsimp only
  generalize he : pre.length + (encodeExts h.extensions).length = e at hL ⊢
  constructor
  · intro before after x codes hext hbefore ht hp hc
    obtain ⟨t, p⟩ := x
    simp only at ht hp
    subst ht hp
    rw [hext, encodeExts_append, encodeExts_cons] at hd he
    simp only [List.length_append] at he
    obtain ⟨f', hf', heq⟩ := sigSearch_skip h.encode e (by omega) before pre
      (Ext.encode ⟨0x000d, sigPayload codes⟩ ++ encodeExts after) (h.encode.length + 1)
      (by rw [hd]; simp only [List.append_assoc, List.append_nil]) (by omega) hbefore (by omega)
    rw [heq]
    have hpre : pre.length + (encodeExts before).length = (pre ++ encodeExts before).length := by
      simp
    rw [hpre]
    exact sigSearch_at_entry h.encode e (by omega) (pre ++ encodeExts before)
      (encodeExts after) codes f' (by rw [hd]; simp only [List.append_assoc, List.append_nil])
      (by rw [← hpre]; omega) hc (by rw [← hpre]; exact hf')
  · intro hnone
    obtain ⟨f', _, heq⟩ := sigSearch_skip h.encode e (by omega) h.extensions pre []
      (h.encode.length + 1) hd (by omega) hnone (by omega)
    rw [heq, sigSearch_done (by omega)]

/-- Witness of C6 on the sample Client Hello, whose second `0x000d` entry is ignored. -/
theorem extractSignatureAlgorithms_wellFormed_witness :
    extractSignatureAlgorithms sampleHello.encode = .ok [0x0403, 0x0804] :=
  (extractSignatureAlgorithms_wellFormed sampleHello (by decide)).1
    [⟨0x0a0a, []⟩, ⟨0x0000, [0, 6, 0, 0, 3, 97, 46, 98]⟩]
    [⟨0x0010, alpnPayload [[104, 50], [104, 116, 116, 112, 47, 49, 46, 49]]⟩,
      ⟨0x000d, sigPayload [0x0401]⟩]
    ⟨0x000d, sigPayload [0x0403, 0x0804]⟩ [0x0403, 0x0804] rfl (by decide) rfl rfl (by decide)

/-- C7. On a well-formed Client Hello buffer, when the first entry of type `0x0010` in the
extensions block carries a 2-byte list length followed by protocol names, each behind its
1-byte length, `extractALPN` returns exactly these names in wire order, empty names included;
when no entry has type `0x0010` it returns the empty list. -/
theorem extractALPN_wellFormed (h : Hello) (hwf : h.WellFormed) :
    (∀ (before after : List Ext) (x : Ext) (names : List (List Nat)),
        h.extensions = before ++ x :: after → (∀ y ∈ before, y.typ ≠ 0x0010) →
        x.typ = 0x0010 → x.payload = alpnPayload names →
        extractALPN h.encode = .ok names) ∧
      ((∀ y ∈ h.extensions, y.typ ≠ 0x0010) → extractALPN h.encode = .ok []) := by
  obtain ⟨pre, hd, hw, hL⟩ := walk_encode h hwf
  rw [extractALPN_eq, hw]
  dsimp only
  generalize he : pre.length + (encodeExts h.extensions).length = e at hL ⊢
  constructor
  · intro before after x names hext hbefore ht hp
    obtain ⟨t, p⟩ := x
    simp only at ht hp
    subst ht hp
    rw [hext, encodeExts_append, encodeExts_cons] at hd he
    simp only [List.length_append] at he
    obtain ⟨f', hf', heq⟩ := alpnSearch_skip h.encode e (by omega) before pre
      (Ext.encode ⟨0x0010, alpnPayload names⟩ ++ encodeExts after) (h.encode.length + 1)
      (by rw [hd]; simp only [List.append_assoc, List.append_nil]) (by omega) hbefore (by omega)
    rw [heq]
    have hpre : pre.length + (encodeExts before).length = (pre ++ encodeExts before).length := by
      simp
    rw [hpre]
    exact alpnSearch_at_entry h.encode e (by omega) (pre ++ encodeExts before)
      (encodeExts after) names f' (by rw [hd]; simp only [List.append_assoc, List.append_nil])
      (by rw [← hpre]; omega) (by rw [← hpre]; exact hf')
  · intro hnone
    obtain ⟨f', _, heq⟩ := alpnSearch_skip h.encode e (by omega) h.extensions pre []
      (h.encode.length + 1) hd (by omega) hnone (by omega)
    rw [heq, alpnSearch_done (by omega)]

/-- Witness of C7 on the sample Client Hello. -/
theorem extractALPN_wellFormed_witness :
    extractALPN sampleHello.encode = .ok [[104, 50], [104, 116, 116, 112, 47, 49, 46, 49]] :=
  (extractALPN_wellFormed sampleHello (by decide)).1
    [⟨0x0a0a, []⟩, ⟨0x0000, [0, 6, 0, 0, 3, 97, 46, 98]⟩, ⟨0x000d, sigPayload [0x0403, 0x0804]⟩]
    [⟨0x000d, sigPayload [0x0401]⟩]
    ⟨0x0010, alpnPayload [[104, 50], [104, 116, 116, 112, 47, 49, 46, 49]]⟩
    [[104, 50], [104, 116, 116, 112, 47, 49, 46, 49]] rfl (by decide) rfl rfl

/-! ### GREASE removal and the canonical strings -/

theorem removeGREASE_foldl (xs acc : List Nat) :
    xs.foldl (fun result d => if !isGREASE d then result ++ [d] else result) acc =
      acc ++ xs.filter (fun d => !isGREASE d) := by
  induction xs generalizing acc with
  | nil => simp
  | cons x xs ih =>
    rw [List.foldl_cons, ih]
    cases hx : isGREASE x <;> simp [List.filter_cons, hx]

theorem removeGREASE_eq_filter (xs : List Nat) :
    removeGREASE xs = xs.filter (fun d => !isGREASE d) := by
  rw [removeGREASE, removeGREASE_foldl, List.nil_append]

theorem join_foldl (f : Nat → List Nat) (c : List Nat) (xs : List Nat) (acc : List Nat) :
    xs.foldl (fun s number => s ++ f number ++ c) acc =
      acc ++ xs.flatMap (fun number => f number ++ c) := by
  induction xs generalizing acc with
  | nil => simp
  | cons x xs ih => rw [List.foldl_cons, ih]; simp

theorem flatMap_sep (f : Nat → List Nat) (c : List Nat) (x : Nat) (xs : List Nat) :
    (x :: xs).flatMap (fun number => f number ++ c) =
      List.intercalate c ((x :: xs).map f) ++ c := by
  induction xs generalizing x with
  | nil => simp [List.intercalate]
  | cons y ys ih =>
    rw [List.flatMap_cons, ih y]
    simp [List.intercalate, List.intersperse]

theorem strTo_dropLast (s : List Nat) (b : Nat) :
    strTo (s ++ [b]) (((s ++ [b]).length : Int) - 1) = .ok s := by
  have h : ((s ++ [b]).length : Int) - 1 = (s.length : Int) := by
    simp
  rw [h, strTo, if_pos ⟨by omega, by simp⟩]
  simp

theorem sprintfx_length (hash : List Nat) : (sprintfx hash).length = 2 * hash.length := by
  induction hash with
  | nil => rfl
  | cons b bs ih =>
    simp only [sprintfx, List.flatMap_cons, List.length_append] at ih ⊢
    simp only [List.length_cons, List.length_nil, ih]; omega

theorem sortSlice_eq {xs L : List Nat} (hs : L.Sorted (· ≤ ·)) (hp : L.Perm xs) :
    sortSlice xs = L :=
  List.eq_of_perm_of_sorted ((List.perm_insertionSort _ xs).trans hp.symm)
    (List.sorted_insertionSort _ xs) hs

theorem intercalate_ne_nil (c : List Nat) (f : Nat → List Nat) (hf : ∀ n, f n ≠ [])
    (x : Nat) (xs : List Nat) : List.intercalate c ((x :: xs).map f) ≠ [] := by
  cases xs with
  | nil => simpa [List.intercalate] using hf x
  | cons y ys => simp [List.intercalate, List.intersperse, hf x]

/-- The cipher hash of a list with a non-GREASE value, in terms of its sorted non-GREASE
values `L`. -/
theorem getCipherHash_of_sorted (sum256 : List Nat → List Nat)
    (hsum : ∀ s, (sum256 s).length = 32) (cs L : List Nat) (hne : L ≠ [])
    (hs : L.Sorted (· ≤ ·)) (hp : L.Perm (cs.filter (fun v => !isGREASE v))) :
    getCipherHash sum256 cs =
      .ok ((sprintfx (sum256 (List.intercalate (ascii ",") (L.map sprintf04x)))).take 12) := by
  have hlen : (removeGREASE cs).length ≠ 0 := by
    rw [removeGREASE_eq_filter, ← hp.length_eq]
    exact fun h => hne (List.length_eq_zero.1 h)
  obtain ⟨x, xs, rfl⟩ := List.exists_cons_of_ne_nil hne
  have hcomma : ascii "," = [44] := by decide
  rw [getCipherHash]
  simp only [hlen, if_false]
  rw [removeGREASE_eq_filter, sortSlice_eq hs hp, join_foldl, List.nil_append, flatMap_sep,
    hcomma, strTo_dropLast, ok_bind]
  have hv : List.intercalate [44] ((x :: xs).map sprintf04x) ≠ [] :=
    intercalate_ne_nil _ _ (fun n => by simp [sprintf04x]) x xs
  rw [CalculateSHA256Hash, if_neg hv, strTo,
    if_pos ⟨by omega, by rw [sprintfx_length, hsum]; omega⟩]
  rfl

/-- C10. `getCipherHash` returns the sentinel `000000000000` when every value of the list is
GREASE (the empty list included), and otherwise the first 12 characters of the lowercase hex
rendering of the SHA-256 digest of the string made of the non-GREASE values, sorted ascending
(duplicates kept), each rendered with `%04x`, joined with commas. -/
theorem getCipherHash_spec (sum256 : List Nat → List Nat)
    (hsum : ∀ s, (sum256 s).length = 32) (cs : List Nat) :
    ((∀ v ∈ cs, isGREASE v = true) → getCipherHash sum256 cs = .ok (ascii "000000000000")) ∧
      ((∃ v ∈ cs, isGREASE v = false) →
        ∀ L : List Nat, L.Sorted (· ≤ ·) → L.Perm (cs.filter (fun v => !isGREASE v)) →
          getCipherHash sum256 cs =
            .ok ((sprintfx (sum256
              (List.intercalate (ascii ",") (L.map sprintf04x)))).take 12)) := by
  constructor
  · intro hall
    have : removeGREASE cs = [] := by
      rw [removeGREASE_eq_filter, List.filter_eq_nil_iff]
      intro v hv; simp [hall v hv]
    rw [getCipherHash]
    simp [this]
  · rintro ⟨v, hv, hg⟩ L hs hp
    refine getCipherHash_of_sorted sum256 hsum cs L ?_ hs hp
    intro hnil
    rw [hnil] at hp
    have : v ∈ cs.filter (fun v => !isGREASE v) := List.mem_filter.2 ⟨hv, by simp [hg]⟩
    rw [← hp.mem_iff] at this
    simp at this

/-- Witness of C10, with a constant 32-byte stand-in for the digest function. -/
theorem getCipherHash_spec_witness :
    getCipherHash (fun _ => List.replicate 32 171) [0x1302, 0x0a0a, 0x1301, 0x1302] =
      .ok ((sprintfx ((fun _ => List.replicate 32 171)
        (List.intercalate (ascii ",") ([0x1301, 0x1302, 0x1302].map sprintf04x)))).take 12) :=
  (getCipherHash_spec (fun _ => List.replicate 32 171) (fun _ => by simp)
    [0x1302, 0x0a0a, 0x1301, 0x1302]).2 ⟨0x1302, by decide, by decide⟩
    [0x1301, 0x1302, 0x1302] (by decide) (by decide)

/-- C4 (fails on the code). When the only non-GREASE extensions are `0x0000` and `0x0010`
the rendered string is empty and `getExtensionHash` panics on the slice
`hexFilteredExtensions[:len(hexFilteredExtensions)-1]`, whatever the signature algorithms are:
no 12-character hash is returned. -/
theorem extensionHash_panics_on_sni_alpn_only (sum256 : List Nat → List Nat) :
    extensionHashOf sum256 [0x0000] [] = .error .outOfBounds ∧
      extensionHashOf sum256 [0x0010, 0x0a0a, 0x0000] [0x0403, 0x0804] =
        .error .outOfBounds :=
  ⟨rfl, rfl⟩

/-! ### Order-invariance and GREASE removal -/

theorem sortSlice_perm {xs ys : List Nat} (h : xs.Perm ys) : sortSlice xs = sortSlice ys :=
  sortSlice_eq (List.sorted_insertionSort _ ys) ((List.perm_insertionSort _ ys).trans h.symm)

theorem removeGREASE_perm {xs ys : List Nat} (h : xs.Perm ys) :
    (removeGREASE xs).Perm (removeGREASE ys) := by
  rw [removeGREASE_eq_filter, removeGREASE_eq_filter]
  exact h.filter _

/-- C11. Order-invariance: on two cipher-suite lists that are permutations of each other
`getCipherHash` has the same outcome, and on two extension lists that are permutations of each
other `getExtensionHash` has the same outcome for every `sigs` string; GREASE values may stand
anywhere in either list. -/
theorem hash_order_invariant (sum256 : List Nat → List Nat) (xs ys sigs : List Nat)
    (h : xs.Perm ys) :
    getCipherHash sum256 xs = getCipherHash sum256 ys ∧
      getExtensionHash sum256 xs sigs = getExtensionHash sum256 ys sigs := by
  have h1 : sortSlice (removeGREASE xs) = sortSlice (removeGREASE ys) :=
    sortSlice_perm (removeGREASE_perm h)
  have h2 : (removeGREASE xs).length = (removeGREASE ys).length :=
    (removeGREASE_perm h).length_eq
  constructor
  · simp only [getCipherHash, h1, h2]
  · simp only [getExtensionHash, h1, h2]

/-- Witness of C11: a reordering that also moves the GREASE values. -/
theorem hash_order_invariant_witness :
    getCipherHash sampleSum256 [0x1302, 0x0a0a, 0x1301] =
        getCipherHash sampleSum256 [0x1301, 0x1302, 0x0a0a] ∧
      getExtensionHash sampleSum256 [0x1302, 0x0a0a, 0x1301] (ascii "0403") =
        getExtensionHash sampleSum256 [0x1301, 0x1302, 0x0a0a] (ascii "0403") :=
  hash_order_invariant sampleSum256 [0x1302, 0x0a0a, 0x1301] [0x1301, 0x1302, 0x0a0a]
    (ascii "0403") (by decide)

/-- C12. `removeGREASE` is idempotent, its result holds no GREASE value, and it is the input
with the GREASE values deleted: the other values keep their order and multiplicity. -/
theorem removeGREASE_spec (xs : List Nat) :
    removeGREASE (removeGREASE xs) = removeGREASE xs ∧
      (∀ v ∈ removeGREASE xs, isGREASE v = false) ∧
      removeGREASE xs = xs.filter (fun v => !isGREASE v) ∧
      (removeGREASE xs).Sublist xs ∧
      (∀ v, isGREASE v = false → (removeGREASE xs).count v = xs.count v) := by
  refine ⟨?_, ?_, removeGREASE_eq_filter xs, ?_, ?_⟩
  · simp only [removeGREASE_eq_filter, List.filter_filter, Bool.and_self]
  · intro v hv
    rw [removeGREASE_eq_filter, List.mem_filter] at hv
    simpa using hv.2
  · rw [removeGREASE_eq_filter]; exact List.filter_sublist _
  · intro v hv
    rw [removeGREASE_eq_filter, List.count_filter (by simp [hv])]

/-! ### Version codes, counts and the ALPN code -/

theorem CalculateTLSVersion_other {input : Nat}
    (h : input ∉ [256, 512, 768, 769, 770, 771, 772, 65279, 65277, 65276]) :
    CalculateTLSVersion input = ascii "00" := by
  simp only [List.mem_cons, List.mem_singleton, List.not_mem_nil, or_false, not_or] at h
  obtain ⟨h1, h2, h3, h4, h5, h6, h7, h8, h9, h10⟩ := h
  unfold CalculateTLSVersion
  rw [if_neg h1, if_neg h2, if_neg h3, if_neg h4, if_neg h5, if_neg h6, if_neg h7, if_neg h8,
    if_neg h9, if_neg h10]

theorem CalculateTLSVersion_mem (input : Nat) :
    CalculateTLSVersion input ∈ [ascii "s1", ascii "s2", ascii "s3", ascii "10", ascii "11",
      ascii "12", ascii "13", ascii "d1", ascii "d2", ascii "d3", ascii "00"] := by
  by_cases h : input ∈ [256, 512, 768, 769, 770, 771, 772, 65279, 65277, 65276]
  · simp only [List.mem_cons, List.mem_singleton, List.not_mem_nil, or_false] at h
    rcases h with h | h | h | h | h | h | h | h | h | h <;> subst h <;> decide
  · rw [CalculateTLSVersion_other h]; decide

theorem CalculateTLSVersion_length (input : Nat) : (CalculateTLSVersion input).length = 2 := by
  have h := CalculateTLSVersion_mem input
  simp only [List.mem_cons, List.mem_singleton, List.not_mem_nil, or_false] at h
  rcases h with h | h | h | h | h | h | h | h | h | h | h <;> rw [h] <;> rfl

/-- C15. `CalculateTLSVersion` maps 256, 512, 768, 769, 770, 771, 772, 65279, 65277, 65276 to
`s1`, `s2`, `s3`, `10`, `11`, `12`, `13`, `d1`, `d2`, `d3` and every other value to `00`; the
result is always one of these eleven two-character codes. -/
theorem CalculateTLSVersion_table (input : Nat) :
    (CalculateTLSVersion 256 = ascii "s1" ∧ CalculateTLSVersion 512 = ascii "s2" ∧
      CalculateTLSVersion 768 = ascii "s3" ∧ CalculateTLSVersion 769 = ascii "10" ∧
      CalculateTLSVersion 770 = ascii "11" ∧ CalculateTLSVersion 771 = ascii "12" ∧
      CalculateTLSVersion 772 = ascii "13" ∧ CalculateTLSVersion 65279 = ascii "d1" ∧
      CalculateTLSVersion 65277 = ascii "d2" ∧ CalculateTLSVersion 65276 = ascii "d3") ∧
      (input ∉ [256, 512, 768, 769, 770, 771, 772, 65279, 65277, 65276] →
        CalculateTLSVersion input = ascii "00") ∧
      CalculateTLSVersion input ∈ [ascii "s1", ascii "s2", ascii "s3", ascii "10", ascii "11",
        ascii "12", ascii "13", ascii "d1", ascii "d2", ascii "d3", ascii "00"] ∧
      (CalculateTLSVersion input).length = 2 :=
  ⟨by decide, CalculateTLSVersion_other, CalculateTLSVersion_mem input,
    CalculateTLSVersion_length input⟩

/-- The digits produced for `n` read back as `n`, and the first of them is not `0` unless
`n = 0`. -/
theorem itoaDigits_spec : ∀ (fuel n : Nat) (acc : List Nat), n < fuel →
    ∃ d ds, itoaDigits fuel n acc = (d :: ds) ++ acc ∧
      (d :: ds).foldl (fun v c => 10 * v + (c - 48)) 0 = n ∧
      (∀ c ∈ d :: ds, 48 ≤ c ∧ c ≤ 57) ∧ (0 < n → d ≠ 48) := by
  intro fuel
  induction fuel with
  | zero => intro n acc h; omega
  | succ fuel ih =>
    intro n acc h
    by_cases h0 : n / 10 = 0
    · refine ⟨48 + n % 10, [], ?_, ?_, ?_, ?_⟩
      · simp [itoaDigits, h0]
      · simp; omega
      · intro c hc; simp at hc; omega
      · omega
    · obtain ⟨d, ds, he, hv, hd, hz⟩ := ih (n / 10) ((48 + n % 10) :: acc) (by omega)
      refine ⟨d, ds ++ [48 + n % 10], ?_, ?_, ?_, ?_⟩
      · simp only [itoaDigits, h0, if_false, he]; simp
      · rw [← List.cons_append, List.foldl_append, hv]; simp; omega
      · intro c hc
        rw [← List.cons_append, List.mem_append] at hc
        rcases hc with hc | hc
        · exact hd c hc
        · simp at hc; omega
      · intro _; exact hz (by omega)

/-- The rendering `Itoa n` is the decimal numeral of `n`: digits only, value `n`, and no
leading zero unless `n = 0`. -/
theorem Itoa_decimal (n : Nat) :
    ∃ d ds, Itoa n = d :: ds ∧ (d :: ds).foldl (fun v c => 10 * v + (c - 48)) 0 = n ∧
      (∀ c ∈ d :: ds, 48 ≤ c ∧ c ≤ 57) ∧ (0 < n → d ≠ 48) := by
  obtain ⟨d, ds, he, hv, hd, hz⟩ := itoaDigits_spec (n + 1) n [] (by omega)
  exact ⟨d, ds, by simpa [Itoa] using he, hv, hd, hz⟩

theorem Itoa_ne_00 {n : Nat} (h : 0 < n) : Itoa n ≠ ascii "00" := by
  obtain ⟨d, ds, he, -, -, hz⟩ := Itoa_decimal n
  have h00 : ascii "00" = [48, 48] := by decide
  rw [he, h00]
  intro hc
  simp only [List.cons.injEq] at hc
  exact hz h hc.1

theorem sprintf02x_zero : sprintf02x 0 = ascii "00" := by decide

theorem getExtensionsCount_eq (xs : List Nat) :
    getExtensionsCount xs =
      if (xs.filter (fun v => !isGREASE v)).length = 0 then ascii "00"
      else Itoa (xs.filter (fun v => !isGREASE v)).length := by
  rw [getExtensionsCount, removeGREASE_eq_filter, sprintf02x_zero]

theorem getExtensionsCount_eq_00 (xs : List Nat) :
    getExtensionsCount xs = ascii "00" ↔ ∀ v ∈ xs, isGREASE v = true := by
  rw [getExtensionsCount_eq]
  have hiff : (xs.filter (fun v => !isGREASE v)).length = 0 ↔ ∀ v ∈ xs, isGREASE v = true := by
    rw [List.length_eq_zero, List.filter_eq_nil_iff]
    constructor
    · intro h v hv; simpa using h v hv
    · intro h v hv; simpa using h v hv
  split
  · rename_i h; exact ⟨fun _ => hiff.1 h, fun _ => rfl⟩
  · rename_i h
    constructor
    · intro hc; exact absurd hc (Itoa_ne_00 (by omega))
    · intro hc; exact absurd (hiff.2 hc) h

/-- C17. `getCipherCount` and `getExtensionsCount` both return `00` when the list has no
non-GREASE value and otherwise the decimal numeral, without padding, of the number of
non-GREASE values, duplicates and the codes `0x0000` and `0x0010` counted; the result is `00`
only when that number is zero. -/
theorem counts_spec (xs : List Nat) :
    getCipherCount xs = getExtensionsCount xs ∧
      ((∀ v ∈ xs, isGREASE v = true) → getExtensionsCount xs = ascii "00") ∧
      ((∃ v ∈ xs, isGREASE v = false) →
        getExtensionsCount xs = Itoa (xs.countP (fun v => !isGREASE v)) ∧
        ∃ d ds, getExtensionsCount xs = d :: ds ∧ d ≠ 48 ∧ (∀ c ∈ d :: ds, 48 ≤ c ∧ c ≤ 57) ∧
          (d :: ds).foldl (fun v c => 10 * v + (c - 48)) 0 =
            xs.countP (fun v => !isGREASE v)) ∧
      (getExtensionsCount xs = ascii "00" ↔ xs.countP (fun v => !isGREASE v) = 0) := by
  refine ⟨rfl, (getExtensionsCount_eq_00 xs).2, ?_, ?_⟩
  · rintro ⟨v, hv, hg⟩
    have hpos : 0 < xs.countP (fun v => !isGREASE v) :=
      List.countP_pos_iff.2 ⟨v, hv, by simp [hg]⟩
    have he : getExtensionsCount xs = Itoa (xs.countP (fun v => !isGREASE v)) := by
      rw [getExtensionsCount_eq, ← List.countP_eq_length_filter, if_neg (by omega)]
    obtain ⟨d, ds, hd, hval, hdig, hz⟩ := Itoa_decimal (xs.countP (fun v => !isGREASE v))
    exact ⟨he, d, ds, by rw [he, hd], hz hpos, hdig, hval⟩
  · rw [getExtensionsCount_eq_00, List.countP_eq_zero]
    constructor
    · intro h v hv; simpa using h v hv
    · intro h v hv; simpa using h v hv

/-- The good cases of `formatALPN`: no entry, a first entry of two bytes, and a first entry of
another positive length whose first and last bytes are ASCII. -/
theorem formatALPN_cases (first : List Nat) (others : List (List Nat)) :
    formatALPN [] = .ok (ascii "00") ∧
      (first.length = 2 → formatALPN (first :: others) = .ok first) ∧
      (first.length ≠ 2 → ∀ a z, first.head? = some a → first.getLast? = some z →
        formatALPN (first :: others) = .ok (stringOfByte a ++ stringOfByte z)) := by
  refine ⟨rfl, fun h => by simp [formatALPN, h], fun h a z ha hz => ?_⟩
  cases first with
  | nil => simp at ha
  | cons x xs =>
    simp only [List.head?_cons, Option.some.injEq] at ha
    subst ha
    have hlast : rd (x :: xs) ((x :: xs).length - 1) = .ok z := by
      rw [List.getLast?_eq_getElem?] at hz
      simp only [rd, hz]
    have hfirst : rd (x :: xs) 0 = .ok x := by simp [rd]
    simp only [formatALPN, h, if_false]
    rw [hlast, hfirst]
    rfl

/-- C16 (fails on the code). On a list whose first entry is the empty protocol name, which
`extractALPN` returns for a name of declared length 0, `formatALPN` does not return a
two-character code: the index expression `alpn[0]` panics. The other cases listed by the claim
evaluate as stated. -/
theorem formatALPN_empty_name_panics :
    formatALPN [[]] = .error .outOfBounds ∧
      formatALPN [[], ascii "h2"] = .error .outOfBounds ∧
      formatALPN [] = .ok (ascii "00") ∧ formatALPN [ascii "h2"] = .ok (ascii "h2") ∧
      formatALPN [ascii "http/1.1"] = .ok (ascii "h1") := by
  decide

/-! ### The assembled fingerprint -/

theorem ok_bind_inv {α β : Type} {x : Except Trap α} {f : α → Except Trap β} {b : β}
    (h : (x >>= f) = .ok b) : ∃ a, x = .ok a ∧ f a = .ok b := by
  cases x with
  | error e => cases h
  | ok a => exact ⟨a, rfl, h⟩

theorem CalculateJA4_not_hello (sum256 : List Nat → List Nat) (event : UserSpaceTLSEvent)
    (h : event.HandshakeType ≠ 0x01) : CalculateJA4 sum256 event = .ok [] := by
  simp only [CalculateJA4, h, ne_eq, not_false_eq_true, if_true]

theorem CalculateJA4_no_extension (sum256 : List Nat → List Nat) (event : UserSpaceTLSEvent)
    (h : ∀ v ∈ event.Extensions, isGREASE v = true) : CalculateJA4 sum256 event = .ok [] := by
  have h00 := (getExtensionsCount_eq_00 event.Extensions).2 h
  simp only [CalculateJA4, h00, ne_eq, not_true_eq_false, if_false]
  split <;> rfl

/-- Shape of every fingerprint `CalculateJA4` returns for a Client Hello with a non-GREASE
extension: the plaintext fields in order, then the two hashes behind underscores. -/
theorem CalculateJA4_shape (sum256 : List Nat → List Nat) (event : UserSpaceTLSEvent)
    (h1 : event.HandshakeType = 0x01) (hne : ∃ v ∈ event.Extensions, isGREASE v = false)
    (s : List Nat) (hs : CalculateJA4 sum256 event = .ok s) :
    ∃ alpn cipherHash sigs extHash,
      formatALPN event.ALPNValues = .ok alpn ∧
      getCipherHash sum256 event.CipherSuites = .ok cipherHash ∧
      getSigs event.SignatureAlgo = .ok sigs ∧
      getExtensionHash sum256 event.Extensions sigs = .ok extHash ∧
      s = protocolOf event ++ tlsVerOf event ++ sniOf event ++
        getCipherCount event.CipherSuites ++ getExtensionsCount event.Extensions ++ alpn ++
        ascii "_" ++ cipherHash ++ ascii "_" ++ extHash := by
  have h00 : getExtensionsCount event.Extensions ≠ ascii "00" := by
    rw [ne_eq, getExtensionsCount_eq_00]
    obtain ⟨v, hv, hg⟩ := hne
    intro hall
    rw [hall v hv] at hg
    cases hg
  simp only [CalculateJA4, h1, ne_eq, not_true_eq_false, if_false, h00, not_false_eq_true,
    if_true] at hs
  obtain ⟨alpn, ha, hs⟩ := ok_bind_inv hs
  obtain ⟨ch, hc, hs⟩ := ok_bind_inv hs
  obtain ⟨sigs, hg, hs⟩ := ok_bind_inv hs
  obtain ⟨eh, he, hs⟩ := ok_bind_inv hs
  refine ⟨alpn, ch, sigs, eh, ha, hc, hg, he, ?_⟩
  simp only [Except.ok.injEq] at hs
  exact hs.symm

/-- A returned fingerprint of a Client Hello with a non-GREASE extension is not empty. -/
theorem CalculateJA4_ne_nil (sum256 : List Nat → List Nat) (event : UserSpaceTLSEvent)
    (h1 : event.HandshakeType = 0x01) (hne : ∃ v ∈ event.Extensions, isGREASE v = false)
    (s : List Nat) (hs : CalculateJA4 sum256 event = .ok s) : s ≠ [] := by
  obtain ⟨alpn, ch, sigs, eh, -, -, -, -, rfl⟩ := CalculateJA4_shape sum256 event h1 hne s hs
  have hu : ascii "_" = [95] := by decide
  intro hnil
  have := congrArg List.length hnil
  simp [hu] at this

/-- C13. `CalculateJA4` returns the empty string whenever the handshake type is not `0x01`
and whenever the extension list is empty or all GREASE; and when the handshake type is `0x01`
and some extension is not GREASE, every string it returns is non-empty. -/
theorem CalculateJA4_gates (sum256 : List Nat → List Nat) (event : UserSpaceTLSEvent) :
    (event.HandshakeType ≠ 0x01 → CalculateJA4 sum256 event = .ok []) ∧
      ((∀ v ∈ event.Extensions, isGREASE v = true) → CalculateJA4 sum256 event = .ok []) ∧
      (event.HandshakeType = 0x01 → (∃ v ∈ event.Extensions, isGREASE v = false) →
        ∀ s, CalculateJA4 sum256 event = .ok s → s ≠ []) :=
  ⟨CalculateJA4_not_hello sum256 event, CalculateJA4_no_extension sum256 event,
    CalculateJA4_ne_nil sum256 event⟩

theorem findLargest_foldl (l : List Nat) (init : Nat) :
    init ≤ l.foldl (fun largest number => if number > largest then number else largest) init ∧
      (∀ v ∈ l,
        v ≤ l.foldl (fun largest number => if number > largest then number else largest) init) ∧
      (l.foldl (fun largest number => if number > largest then number else largest) init = init ∨
        l.foldl (fun largest number => if number > largest then number else largest) init ∈ l) := by
  induction l generalizing init with
  | nil => simp
  | cons x xs ih =>
    simp only [List.foldl_cons]
    by_cases hx : x > init
    · rw [if_pos hx]
      obtain ⟨h1, h2, h3⟩ := ih x
      refine ⟨by omega, ?_, ?_⟩
      · intro v hv
        rcases List.mem_cons.1 hv with rfl | hv
        · exact h1
        · exact h2 v hv
      · rcases h3 with h3 | h3
        · right; rw [h3]; exact List.mem_cons_self _ _
        · right; exact List.mem_cons_of_mem _ h3
    · rw [if_neg hx]
      obtain ⟨h1, h2, h3⟩ := ih init
      refine ⟨h1, ?_, ?_⟩
      · intro v hv
        rcases List.mem_cons.1 hv with rfl | hv
        · omega
        · exact h2 v hv
      · rcases h3 with h3 | h3
        · left; exact h3
        · right; exact List.mem_cons_of_mem _ h3

/-- The function `findLargest` returns the greatest element of a non-empty list. -/
theorem findLargest_max {l : List Nat} {m : Nat} (hm : m ∈ l) (hle : ∀ v ∈ l, v ≤ m) :
    findLargest l = m := by
  cases l with
  | nil => simp at hm
  | cons x xs =>
    obtain ⟨h1, h2, h3⟩ := findLargest_foldl (x :: xs) x
    have hge : m ≤ findLargest (x :: xs) := h2 m hm
    have hle2 : findLargest (x :: xs) ≤ m := by
      rcases h3 with h3 | h3
      · have : findLargest (x :: xs) = x := h3
        rw [this]; exact hle x (List.mem_cons_self _ _)
      · exact hle _ h3
    omega

/-- C14 as stated fails: with 773 beside 772 in `supportedVersions` (legacy version 771, a
Client Hello with non-GREASE extensions) `findLargest` returns 773 and the version code in the
fingerprint is `00`, not `13`. -/
theorem version_code_not_13_counterexample :
    sampleEvent.HandshakeType = 0x01 ∧ (∃ v ∈ sampleEvent.Extensions, isGREASE v = false) ∧
      sampleEvent.TLSVersion = 771 ∧ 772 ∈ [773, 772, 771] ∧
      tlsVerOf { sampleEvent with SupportedVersions := [773, 772, 771] } = ascii "00" ∧
      CalculateJA4 sampleSum256 { sampleEvent with SupportedVersions := [773, 772, 771] } =
        .ok (ascii "t00d25h2_abababababab_abababababab") := by
  decide

/-- C14, amended. For a Client Hello record with a non-GREASE extension, legacy version 771
and a `supportedVersions` list that contains 772 and no greater value, every fingerprint
`CalculateJA4` returns carries the version code `13` right after the transport letter. -/
theorem version_code_13 (sum256 : List Nat → List Nat) (event : UserSpaceTLSEvent)
    (h1 : event.HandshakeType = 0x01) (hne : ∃ v ∈ event.Extensions, isGREASE v = false)
    (_hlegacy : event.TLSVersion = 771) (hmem : 772 ∈ event.SupportedVersions)
    (hmax : ∀ v ∈ event.SupportedVersions, v ≤ 772)
    (s : List Nat) (hs : CalculateJA4 sum256 event = .ok s) :
    tlsVerOf event = ascii "13" ∧ ∃ rest, s = protocolOf event ++ ascii "13" ++ rest := by
  have hv : tlsVerOf event = ascii "13" := by
    have hpos : event.SupportedVersions.length > 0 := List.length_pos_of_mem hmem
    simp only [tlsVerOf, hpos, if_true, findLargest_max hmem hmax]
    decide
  obtain ⟨alpn, ch, sigs, eh, -, -, -, -, rfl⟩ := CalculateJA4_shape sum256 event h1 hne s hs
  refine ⟨hv, ?_⟩
  rw [hv]
  exact ⟨sniOf event ++ (getCipherCount event.CipherSuites ++
    (getExtensionsCount event.Extensions ++ (alpn ++ (ascii "_" ++ (ch ++ (ascii "_" ++ eh)))))),
    by simp only [List.append_assoc]⟩

/-- Witness of the amended C14 on the sample event. -/
theorem version_code_13_witness :
    tlsVerOf sampleEvent = ascii "13" ∧ ∃ rest,
      ascii "t13d25h2_abababababab_abababababab" = protocolOf sampleEvent ++ ascii "13" ++ rest :=
  version_code_13 sampleSum256 sampleEvent (by decide) (by decide) (by decide) (by decide)
    (by decide) _ (by decide)

theorem splitByte_length (sep : Nat) (s cur : List Nat) :
    (splitByte sep s cur).length = s.count sep + 1 := by
  induction s generalizing cur with
  | nil => simp [splitByte]
  | cons c cs ih =>
    by_cases h : c = sep
    · subst h; simp [splitByte, ih]
    · simp [splitByte, h, ih, List.count_cons]

theorem sniOf_eq (event : UserSpaceTLSEvent) :
    sniOf event = if 46 ∈ event.SNI then ascii "d" else ascii "i" := by
  simp only [sniOf, splitByte_length]
  by_cases h : 46 ∈ event.SNI
  · have hne : event.SNI ≠ [] := List.ne_nil_of_mem h
    have hc : 0 < event.SNI.count 46 := List.count_pos_iff.2 h
    rw [if_pos hne, if_pos (by omega), if_pos h]
  · have hc : event.SNI.count 46 = 0 := List.count_eq_zero.2 h
    rw [if_neg h]
    split
    · rw [if_neg (by omega)]
    · rfl

/-- C19. In every fingerprint `CalculateJA4` returns for a Client Hello with a non-GREASE
extension, the transport letter (`t`, `q` or none) and the two characters of the version code
are followed by the SNI indicator, which is `d` exactly when the server name is non-empty and
splits on `.` into at least two parts, that is when it contains a `.`, and `i` otherwise. -/
theorem sni_indicator (sum256 : List Nat → List Nat) (event : UserSpaceTLSEvent)
    (h1 : event.HandshakeType = 0x01) (hne : ∃ v ∈ event.Extensions, isGREASE v = false)
    (s : List Nat) (hs : CalculateJA4 sum256 event = .ok s) :
    (∃ rest, s = protocolOf event ++ tlsVerOf event ++ sniOf event ++ rest) ∧
      (protocolOf event = ascii "t" ∨ protocolOf event = ascii "q" ∨ protocolOf event = []) ∧
      (tlsVerOf event).length = 2 ∧
      (sniOf event = ascii "d" ∨ sniOf event = ascii "i") ∧
      (sniOf event = ascii "d" ↔
        event.SNI ≠ [] ∧ 2 ≤ (splitByte 46 event.SNI []).length) ∧
      (sniOf event = ascii "d" ↔ 46 ∈ event.SNI) ∧
      (sniOf event = ascii "i" ↔ 46 ∉ event.SNI) := by
  obtain ⟨alpn, ch, sigs, eh, -, -, -, -, rfl⟩ := CalculateJA4_shape sum256 event h1 hne s hs
  have hdi : ascii "d" ≠ ascii "i" := by decide
  refine ⟨⟨getCipherCount event.CipherSuites ++ (getExtensionsCount event.Extensions ++
    (alpn ++ (ascii "_" ++ (ch ++ (ascii "_" ++ eh))))), by simp only [List.append_assoc]⟩,
    ?_, ?_, ?_, ?_, ?_, ?_⟩
  · unfold protocolOf
    split
    · exact Or.inl rfl
    · split
      · exact Or.inr (Or.inl rfl)
      · exact Or.inr (Or.inr rfl)
  · unfold tlsVerOf
    dsimp only
    split <;> exact CalculateTLSVersion_length _
  · rw [sniOf_eq]; split
    · exact Or.inl rfl
    · exact Or.inr rfl
  · rw [sniOf_eq, splitByte_length]
    by_cases h : 46 ∈ event.SNI
    · rw [if_pos h]
      have hc : 0 < event.SNI.count 46 := List.count_pos_iff.2 h
      exact ⟨fun _ => ⟨List.ne_nil_of_mem h, by omega⟩, fun _ => rfl⟩
    · rw [if_neg h]
      have hc : event.SNI.count 46 = 0 := List.count_eq_zero.2 h
      exact ⟨fun hc2 => absurd hc2.symm hdi, fun hc2 => by omega⟩
  · rw [sniOf_eq]
    by_cases h : 46 ∈ event.SNI
    · rw [if_pos h]; exact ⟨fun _ => h, fun _ => rfl⟩
    · rw [if_neg h]; exact ⟨fun hc2 => absurd hc2.symm hdi, fun hc2 => absurd hc2 h⟩
  · rw [sniOf_eq]
    by_cases h : 46 ∈ event.SNI
    · rw [if_pos h]; exact ⟨fun hc2 => absurd hc2 hdi, fun hc2 => absurd h hc2⟩
    · rw [if_neg h]; exact ⟨fun _ => h, fun _ => rfl⟩

/-- Witness of C19 on the sample event with the dot-free server name `localhost`. -/
theorem sni_indicator_witness :
    sniOf { sampleEvent with SNI := ascii "localhost" } = ascii "i" ∧
      CalculateJA4 sampleSum256 { sampleEvent with SNI := ascii "localhost" } =
        .ok (ascii "t13i25h2_abababababab_abababababab") :=
  ⟨((sni_indicator sampleSum256 { sampleEvent with SNI := ascii "localhost" } (by decide)
      (by decide) (ascii "t13i25h2_abababababab_abababababab") (by decide)).2.2.2.2.2.2).2
      (by decide), by decide⟩

/-! ### The extension hash ignores server_name and ALPN type codes -/

theorem render_foldl (xs acc : List Nat) :
    xs.foldl (fun hexFilteredExtensions number =>
        if sprintf04x number ≠ ascii "0000" ∧ sprintf04x number ≠ ascii "0010" then
          hexFilteredExtensions ++ sprintf04x number ++ ascii ","
        else hexFilteredExtensions) acc =
      acc ++ (xs.filter (fun v =>
        decide (sprintf04x v ≠ ascii "0000" ∧ sprintf04x v ≠ ascii "0010"))).flatMap
          (fun number => sprintf04x number ++ ascii ",") := by
  induction xs generalizing acc with
  | nil => simp
  | cons x xs ih =>
    rw [List.foldl_cons, ih]
    by_cases hx : sprintf04x x ≠ ascii "0000" ∧ sprintf04x x ≠ ascii "0010"
    · rw [if_pos hx, List.filter_cons_of_pos (by simpa using hx)]
      simp
    · rw [if_neg hx, List.filter_cons_of_neg (by simpa using hx)]

theorem getExtensionHash_eq (sum256 : List Nat → List Nat) (extensions sigs : List Nat) :
    getExtensionHash sum256 extensions sigs =
      if (removeGREASE extensions).length = 0 then .ok (ascii "000000000000")
      else
        strTo (((sortSlice (removeGREASE extensions)).filter (fun v =>
            decide (sprintf04x v ≠ ascii "0000" ∧ sprintf04x v ≠ ascii "0010"))).flatMap
              (fun number => sprintf04x number ++ ascii ","))
          (((((sortSlice (removeGREASE extensions)).filter (fun v =>
            decide (sprintf04x v ≠ ascii "0000" ∧ sprintf04x v ≠ ascii "0010"))).flatMap
              (fun number => sprintf04x number ++ ascii ",")).length : Int) - 1) >>=
        fun hex =>
          strTo (if sigs.length > 0 then CalculateSHA256Hash sum256 (hex ++ ascii "_" ++ sigs)
            else CalculateSHA256Hash sum256 hex) 12 := by
  unfold getExtensionHash
  dsimp only
  split
  · rfl
  · rw [render_foldl, List.nil_append]

theorem sortSlice_filter (p : Nat → Bool) (xs : List Nat) :
    (sortSlice xs).filter p = sortSlice (xs.filter p) :=
  (sortSlice_eq ((List.sorted_insertionSort _ xs).filter p)
    ((List.perm_insertionSort _ xs).filter p)).symm

/-- C18. When the extension list holds a non-GREASE value other than `0x0000` and `0x0010`,
removing every `0x0000` and `0x0010` entry from it leaves the outcome of `getExtensionHash`
unchanged, for every `sigs` string. -/
theorem extensionHash_ignores_sni_alpn (sum256 : List Nat → List Nat) (ext sigs : List Nat)
    (h : ∃ v ∈ ext, isGREASE v = false ∧ v ≠ 0x0000 ∧ v ≠ 0x0010) :
    getExtensionHash sum256 ext sigs =
      getExtensionHash sum256 (ext.filter (fun v => decide (v ≠ 0x0000 ∧ v ≠ 0x0010))) sigs := by
  obtain ⟨v, hv, hg, h0, h16⟩ := h
  have hne1 : (removeGREASE ext).length ≠ 0 := by
    rw [removeGREASE_eq_filter]
    exact List.length_pos.2 (List.ne_nil_of_mem (List.mem_filter.2 ⟨hv, by simp [hg]⟩)) |>.ne'
  have hne2 : (removeGREASE (ext.filter (fun v => decide (v ≠ 0x0000 ∧ v ≠ 0x0010)))).length ≠ 0 := by
    rw [removeGREASE_eq_filter]
    have hm : v ∈ (ext.filter (fun v => decide (v ≠ 0x0000 ∧ v ≠ 0x0010))).filter
        (fun d => !isGREASE d) :=
      List.mem_filter.2 ⟨List.mem_filter.2 ⟨hv, by simp [h0, h16]⟩, by simp [hg]⟩
    exact (List.length_pos.2 (List.ne_nil_of_mem hm)).ne'
  have hkey : (sortSlice (removeGREASE ext)).filter (fun v =>
        decide (sprintf04x v ≠ ascii "0000" ∧ sprintf04x v ≠ ascii "0010")) =
      (sortSlice (removeGREASE (ext.filter (fun v => decide (v ≠ 0x0000 ∧ v ≠ 0x0010))))).filter
        (fun v => decide (sprintf04x v ≠ ascii "0000" ∧ sprintf04x v ≠ ascii "0010")) := by
    rw [sortSlice_filter, sortSlice_filter, removeGREASE_eq_filter, removeGREASE_eq_filter]
    congr 1
    simp only [List.filter_filter]
    apply List.filter_congr
    intro w _
    by_cases hw : w ≠ 0x0000 ∧ w ≠ 0x0010
    · simp [hw]
    · have hw' : w = 0 ∨ w = 16 := by omega
      rcases hw' with rfl | rfl <;> decide
  rw [getExtensionHash_eq, getExtensionHash_eq, if_neg hne1, if_neg hne2, hkey]

/-- Witness of C18: server_name and ALPN codes at several places, one of them twice. -/
theorem extensionHash_ignores_sni_alpn_witness :
    getExtensionHash sampleSum256 [0x0010, 0x000d, 0x0000, 0x1a1a, 0x002b, 0x0000]
        (ascii "0403") =
      getExtensionHash sampleSum256 ([0x0010, 0x000d, 0x0000, 0x1a1a, 0x002b, 0x0000].filter
        (fun v => decide (v ≠ 0x0000 ∧ v ≠ 0x0010))) (ascii "0403") :=
  extensionHash_ignores_sni_alpn sampleSum256 _ _ ⟨0x000d, by decide, by decide⟩

/-! ### The three parsers walk the same entries -/

theorem b8_lt {data : List Nat} (hb : ∀ b ∈ data, b < 256) {i : Nat} (hi : i < data.length) :
    b8 data i < 256 := by
  have : b8 data i ∈ data := by
    rw [b8, List.getD_eq_getElem _ _ hi]; exact List.getElem_mem _
  exact hb _ this

theorem t16_eq_b16 {data : List Nat} (hb : ∀ b ∈ data, b < 256) {i : Nat}
    (hi : i < data.length) : t16 data i = b16 data i := by
  have h := b8_lt hb hi
  have : (b8 data i <<< 8) % 65536 = b8 data i <<< 8 := by
    rw [Nat.shiftLeft_eq]; apply Nat.mod_eq_of_lt; omega
  rw [t16, b16, this]

/-- Where the signature search finds codes, the extension loop reports type `0x000d`. -/
theorem sigSearch_nonempty_mem {data : List Nat} (hb : ∀ b ∈ data, b < 256) {e : Nat}
    (he : e ≤ data.length) :
    ∀ (f f' o : Nat) (acc r : List Nat), e < o + f → e < o + f' →
      sigSearch data e f o = .ok r → r ≠ [] →
      ∃ zs, extensionsLoop data e f' o acc = .ok (acc ++ zs) ∧ 0x000d ∈ zs := by
  intro f
  induction f with
  | zero =>
    intro f' o acc r hf _ hs hr
    rw [sigSearch_done (by omega)] at hs
    simp only [Except.ok.injEq] at hs
    exact absurd hs.symm hr
  | succ f ih =>
    intro f' o acc r hf hf' hs hr
    by_cases hc : o + 4 ≤ e
    · obtain ⟨f', rfl⟩ : ∃ k, f' = k + 1 := ⟨f' - 1, by omega⟩
      rw [extensionsLoop_step hc he, t16_eq_b16 hb (by omega)]
      by_cases hm : b16 data o = 0x000d ∧ o + 6 ≤ e
      · obtain ⟨zs, hzs⟩ := extensionsLoop_total he f' (o + 4 + b16 data (o + 2))
          (acc ++ [b16 data o]) (by omega)
        refine ⟨b16 data o :: zs, by rw [hzs, List.append_assoc]; rfl, ?_⟩
        rw [hm.1]; exact List.mem_cons_self _ _
      · rw [sigSearch_miss hc he hm] at hs
        obtain ⟨zs, hzs, hmem⟩ := ih f' (o + 4 + b16 data (o + 2)) (acc ++ [b16 data o]) r
          (by omega) (by omega) hs hr
        exact ⟨b16 data o :: zs, by rw [hzs, List.append_assoc]; rfl,
          List.mem_cons_of_mem _ hmem⟩
    · rw [sigSearch_done hc] at hs
      simp only [Except.ok.injEq] at hs
      exact absurd hs.symm hr

/-- Where the ALPN search finds names, the extension loop reports type `0x0010`. -/
theorem alpnSearch_nonempty_mem {data : List Nat} (hb : ∀ b ∈ data, b < 256) {e : Nat}
    (he : e ≤ data.length) :
    ∀ (f f' o : Nat) (acc : List Nat) (r : List (List Nat)), e < o + f → e < o + f' →
      alpnSearch data e f o = .ok r → r ≠ [] →
      ∃ zs, extensionsLoop data e f' o acc = .ok (acc ++ zs) ∧ 0x0010 ∈ zs := by
  intro f
  induction f with
  | zero =>
    intro f' o acc r hf _ hs hr
    rw [alpnSearch_done (by omega)] at hs
    simp only [Except.ok.injEq] at hs
    exact absurd hs.symm hr
  | succ f ih =>
    intro f' o acc r hf hf' hs hr
    by_cases hc : o + 4 ≤ e
    · obtain ⟨f', rfl⟩ : ∃ k, f' = k + 1 := ⟨f' - 1, by omega⟩
      rw [extensionsLoop_step hc he, t16_eq_b16 hb (by omega)]
      by_cases hm : b16 data o = 0x0010 ∧ o + 6 ≤ e
      · obtain ⟨zs, hzs⟩ := extensionsLoop_total he f' (o + 4 + b16 data (o + 2))
          (acc ++ [b16 data o]) (by omega)
        refine ⟨b16 data o :: zs, by rw [hzs, List.append_assoc]; rfl, ?_⟩
        rw [hm.1]; exact List.mem_cons_self _ _
      · rw [alpnSearch_miss hc he hm] at hs
        obtain ⟨zs, hzs, hmem⟩ := ih f' (o + 4 + b16 data (o + 2)) (acc ++ [b16 data o]) r
          (by omega) (by omega) hs hr
        exact ⟨b16 data o :: zs, by rw [hzs, List.append_assoc]; rfl,
          List.mem_cons_of_mem _ hmem⟩
    · rw [alpnSearch_done hc] at hs
      simp only [Except.ok.injEq] at hs
      exact absurd hs.symm hr

/-- C20. On a byte buffer of at least 5 bytes whose bytes 3 and 4 declare at most 896: when
`extractSignatureAlgorithms` returns a non-empty list, the list `extractExtensions` returns
contains `0x000d`, and when `extractALPN` returns a non-empty list it contains `0x0010`. -/
theorem parsers_agree (data : List Nat) (h5 : 5 ≤ data.length) (hb : ∀ b ∈ data, b < 256)
    (hlen : 256 * data.getD 3 0 + data.getD 4 0 ≤ 896) :
    (∀ sigs, extractSignatureAlgorithms data = .ok sigs → sigs ≠ [] →
        ∃ exts, extractExtensions data = .ok exts ∧ 0x000d ∈ exts) ∧
      (∀ names, extractALPN data = .ok names → names ≠ [] →
        ∃ exts, extractExtensions data = .ok exts ∧ 0x0010 ∈ exts) := by
  have hgate : ¬ (b8 data 4 ||| (b8 data 3 <<< 8) > 896) := by
    rw [or_shl8 (b8_lt hb (by omega))]
    simp only [b8]; omega
  rw [extractExtensions_eq h5, if_neg hgate, extractSignatureAlgorithms_eq, extractALPN_eq]
  cases hw : walk data with
  | none =>
    constructor
    · intro sigs hs hne
      simp only [Except.ok.injEq] at hs
      exact absurd hs.symm hne
    · intro names hs hne
      simp only [Except.ok.injEq] at hs
      exact absurd hs.symm hne
  | some p =>
    obtain ⟨o, e⟩ := p
    have hwe := walk_end_le hw
    dsimp only
    constructor
    · intro sigs hs hne
      obtain ⟨zs, hzs, hmem⟩ := sigSearch_nonempty_mem hb hwe.1 (data.length + 1)
        (data.length + 1) o [] sigs (by omega) (by omega) hs hne
      exact ⟨zs, by simpa using hzs, hmem⟩
    · intro names hs hne
      obtain ⟨zs, hzs, hmem⟩ := alpnSearch_nonempty_mem hb hwe.1 (data.length + 1)
        (data.length + 1) o [] names (by omega) (by omega) hs hne
      exact ⟨zs, by simpa using hzs, hmem⟩

/-- Witness of C20 on the sample Client Hello, where both lists are non-empty. -/
theorem parsers_agree_witness :
    (∃ exts, extractExtensions sampleHello.encode = .ok exts ∧ 0x000d ∈ exts) ∧
      (∃ exts, extractExtensions sampleHello.encode = .ok exts ∧ 0x0010 ∈ exts) :=
  ⟨(parsers_agree sampleHello.encode (by decide) (by decide) (by decide)).1
      [0x0403, 0x0804] (by decide) (by decide),
    (parsers_agree sampleHello.encode (by decide) (by decide) (by decide)).2
      [[104, 50], [104, 116, 116, 112, 47, 49, 46, 49]] (by decide) (by decide)⟩

/-! ### When the fingerprint is returned -/

theorem hexDigit_eq_48 {d : Nat} (hd : d < 16) : hexDigit d = 48 ↔ d = 0 := by
  interval_cases d <;> decide

theorem hexDigit_eq_49 {d : Nat} (hd : d < 16) : hexDigit d = 49 ↔ d = 1 := by
  interval_cases d <;> decide

theorem sprintf04x_eq_0000 {v : Nat} (hv : v < 65536) : sprintf04x v = ascii "0000" ↔ v = 0 := by
  have h : ascii "0000" = [48, 48, 48, 48] := by decide
  rw [h, sprintf04x]
  simp only [List.cons.injEq, and_true, hexDigit_eq_48 (Nat.mod_lt _ (by omega : 0 < 16))]
  omega

theorem sprintf04x_eq_0010 {v : Nat} (hv : v < 65536) : sprintf04x v = ascii "0010" ↔ v = 16 := by
  have h : ascii "0010" = [48, 48, 49, 48] := by decide
  rw [h, sprintf04x]
  simp only [List.cons.injEq, and_true, hexDigit_eq_48 (Nat.mod_lt _ (by omega : 0 < 16)),
    hexDigit_eq_49 (Nat.mod_lt _ (by omega : 0 < 16))]
  omega

theorem getSigs_total (sigs : List Nat) : ∃ s, getSigs sigs = .ok s := by
  cases sigs with
  | nil => exact ⟨[], rfl⟩
  | cons x xs =>
    have hcomma : ascii "," = [44] := by decide
    refine ⟨List.intercalate [44] ((x :: xs).map sprintf04x), ?_⟩
    simp only [getSigs, List.length_cons, Nat.add_one_ne_zero, if_false]
    rw [join_foldl, List.nil_append, flatMap_sep, hcomma, strTo_dropLast]

theorem getCipherHash_total (sum256 : List Nat → List Nat)
    (hsum : ∀ s, (sum256 s).length = 32) (cs : List Nat) :
    ∃ s, getCipherHash sum256 cs = .ok s := by
  by_cases h : ∀ v ∈ cs, isGREASE v = true
  · have : removeGREASE cs = [] := by
      rw [removeGREASE_eq_filter, List.filter_eq_nil_iff]
      intro v hv; simp [h v hv]
    exact ⟨ascii "000000000000", by rw [getCipherHash]; simp [this]⟩
  · have hne : sortSlice (cs.filter (fun v => !isGREASE v)) ≠ [] := by
      intro hnil
      have hp := List.perm_insertionSort (· ≤ ·) (cs.filter (fun v => !isGREASE v))
      rw [show List.insertionSort (· ≤ ·) (cs.filter (fun v => !isGREASE v)) = [] from hnil] at hp
      have hnil2 := hp.symm.eq_nil
      rw [List.filter_eq_nil_iff] at hnil2
      exact h (fun v hv => by simpa using hnil2 v hv)
    exact ⟨_, getCipherHash_of_sorted sum256 hsum cs _ hne (List.sorted_insertionSort _ _)
      (List.perm_insertionSort _ _)⟩

/-- With a non-GREASE 16-bit value other than `0x0000` and `0x0010` in the list,
`getExtensionHash` returns twelve characters. -/
theorem getExtensionHash_total (sum256 : List Nat → List Nat)
    (hsum : ∀ s, (sum256 s).length = 32) (ext sigs : List Nat)
    (h : ∃ v ∈ ext, isGREASE v = false ∧ v ≠ 0x0000 ∧ v ≠ 0x0010 ∧ v < 65536) :
    ∃ s, getExtensionHash sum256 ext sigs = .ok s ∧ s.length = 12 := by
  obtain ⟨v, hv, hg, h0, h16, hlt⟩ := h
  have hne1 : (removeGREASE ext).length ≠ 0 := by
    rw [removeGREASE_eq_filter]
    exact (List.length_pos.2 (List.ne_nil_of_mem (List.mem_filter.2 ⟨hv, by simp [hg]⟩))).ne'
  have hmem : v ∈ (sortSlice (removeGREASE ext)).filter (fun v =>
      decide (sprintf04x v ≠ ascii "0000" ∧ sprintf04x v ≠ ascii "0010")) := by
    rw [List.mem_filter]
    constructor
    · rw [sortSlice, (List.perm_insertionSort _ _).mem_iff, removeGREASE_eq_filter]
      exact List.mem_filter.2 ⟨hv, by simp [hg]⟩
    · simp only [ne_eq, decide_eq_true_eq, sprintf04x_eq_0000 hlt, sprintf04x_eq_0010 hlt]
      exact ⟨h0, h16⟩
  obtain ⟨x, xs, hx⟩ := List.exists_cons_of_ne_nil (List.ne_nil_of_mem hmem)
  have hcomma : ascii "," = [44] := by decide
  have hv2 : List.intercalate [44] ((x :: xs).map sprintf04x) ≠ [] :=
    intercalate_ne_nil _ _ (fun n => by simp [sprintf04x]) x xs
  rw [getExtensionHash_eq, if_neg hne1, hx, flatMap_sep, hcomma, strTo_dropLast, ok_bind]
  have hlen : ∀ t, t ≠ [] → (CalculateSHA256Hash sum256 t).length = 64 := by
    intro t ht
    rw [CalculateSHA256Hash, if_neg ht, sprintfx_length, hsum]
  have h12 : ∀ t : List Nat, t.length = 64 → ∃ s, strTo t 12 = .ok s ∧ s.length = 12 := by
    intro t ht
    refine ⟨t.take 12, ?_, by rw [List.length_take]; omega⟩
    rw [strTo, if_pos ⟨by omega, by omega⟩]
    rfl
  split
  · exact h12 _ (hlen _ (fun hc => hv2 (List.append_eq_nil.1 (List.append_eq_nil.1 hc).1).1))
  · exact h12 _ (hlen _ hv2)

/-- A Client Hello record is fingerprinted, with a non-empty string, when its extensions
include a non-GREASE 16-bit value other than `0x0000` and `0x0010` and its first ALPN entry,
if there is one, is not the empty name. -/
theorem CalculateJA4_returns (sum256 : List Nat → List Nat)
    (hsum : ∀ s, (sum256 s).length = 32) (event : UserSpaceTLSEvent)
    (h1 : event.HandshakeType = 0x01)
    (hext : ∃ v ∈ event.Extensions, isGREASE v = false ∧ v ≠ 0x0000 ∧ v ≠ 0x0010 ∧ v < 65536)
    (halpn : ∀ first ∈ event.ALPNValues.head?, first ≠ []) :
    ∃ s, CalculateJA4 sum256 event = .ok s ∧ s ≠ [] := by
  have hne : ∃ v ∈ event.Extensions, isGREASE v = false := by
    obtain ⟨v, hv, hg, -⟩ := hext
    exact ⟨v, hv, hg⟩
  have h00 : getExtensionsCount event.Extensions ≠ ascii "00" := by
    rw [ne_eq, getExtensionsCount_eq_00]
    obtain ⟨v, hv, hg⟩ := hne
    intro hall
    rw [hall v hv] at hg
    cases hg
  obtain ⟨alpn, ha⟩ : ∃ a, formatALPN event.ALPNValues = .ok a := by
    cases hA : event.ALPNValues with
    | nil => exact ⟨_, rfl⟩
    | cons first others =>
      by_cases h2 : first.length = 2
      · exact ⟨first, ((formatALPN_cases first others).2.1) h2⟩
      · have hf : first ≠ [] := halpn first (by simp [hA])
        obtain ⟨a, as, rfl⟩ := List.exists_cons_of_ne_nil hf
        exact ⟨_, ((formatALPN_cases (a :: as) others).2.2) h2 a ((a :: as).getLast hf) rfl
          (List.getLast?_eq_getLast _ hf)⟩
  obtain ⟨ch, hc⟩ := getCipherHash_total sum256 hsum event.CipherSuites
  obtain ⟨sigs, hg⟩ := getSigs_total event.SignatureAlgo
  obtain ⟨eh, he, -⟩ := getExtensionHash_total sum256 hsum event.Extensions sigs hext
  have hres : CalculateJA4 sum256 event = .ok (protocolOf event ++ tlsVerOf event ++
      sniOf event ++ getCipherCount event.CipherSuites ++ getExtensionsCount event.Extensions ++
      alpn ++ ascii "_" ++ ch ++ ascii "_" ++ eh) := by
    simp only [CalculateJA4, h1, ne_eq, not_true_eq_false, if_false, h00, not_false_eq_true,
      if_true, ha, hc, hg, he, ok_bind]
  exact ⟨_, hres, CalculateJA4_ne_nil sum256 event h1 hne _ hres⟩

end JA4
